import Mathlib

/-! Verification of the away3d-core-js build tool (`buildaway.py`): the
dependency-graph construction performed by `DepGraph.build`, the leaf
collection, the topological chain evaluation of `DepGraph.evaluate_chain`,
the file resolver `guess_file` and the `gather` output command.

Python object identity is modelled by indices into a heap (`List DepNode`);
the text of a source file is modelled by what the tool's marker patterns
extract from it (`FileData`). -/

set_option linter.unusedVariables false

/-- Error outcomes.  `buildException msg` models `raise BuildException(msg)`;
`pyCrash` models an uncaught Python exception such as the `AttributeError`
raised by `None.split` inside `guess_file` or the `TypeError` from
`os.path.basename(None)` in `gather`; `outOfFuel` is an artifact of the
bounded worklist recursion and is proved unreachable for the bound that
`build` uses. -/
inductive BErr where
  | buildException (msg : String)
  | pyCrash
  | outOfFuel
deriving Repr, DecidableEq

/-- Model of class `DepNode`.  Node identity is a heap index;
`dependencies` and `dependents` hold heap indices. -/
structure DepNode where
  module : Option String
  file_name : Option String
  is_module : Bool
  loaded : Bool
  content : String
  dependencies : List Nat
  dependents : List Nat
  visited : Bool
deriving Repr, DecidableEq, Inhabited

/-- Read the node at index `i`; out-of-range reads give the default node
(they never occur in the executions the theorems are about). -/
def heapGet (heap : List DepNode) (i : Nat) : DepNode := heap.getD i default

/-- Update the node at index `i` in place. -/
def updNode (heap : List DepNode) (i : Nat) (f : DepNode → DepNode) : List DepNode :=
  match heap[i]? with
  | some n => heap.set i (f n)
  | none => heap

/-- Model of `DepNode.push_dependency`: `self.dependencies.append(dep)` and
`dep.dependents.append(self)`. -/
def push_dependency (heap : List DepNode) (self dep : Nat) : List DepNode :=
  updNode (updNode heap self (fun n => { n with dependencies := n.dependencies ++ [dep] }))
    dep (fun n => { n with dependents := n.dependents ++ [self] })

/-- Python `str.split(sep)` for a one-character separator, on the character
list: splitting keeps empty fields and the split of an empty string is a
single empty field. -/
def splitOnChar (c : Char) : List Char → List (List Char)
  | [] => [[]]
  | x :: xs =>
      if x == c then [] :: splitOnChar c xs
      else
        match splitOnChar c xs with
        | [] => [[x]]
        | y :: ys => (x :: y) :: ys

/-- Model of `os.path.basename` on POSIX paths: the part after the last
path separator. -/
def basename (p : String) : String := String.mk ((splitOnChar '/' p.data).getLastD [])

/-- The candidate filename `guess_file` derives: the last dot-separated
segment of the module name plus the fixed `.js` extension. -/
def derivedFileName (module : String) : String :=
  String.mk ((splitOnChar '.' module.data).getLastD []) ++ ".js"

/-- Model of the local function `guess_file` of `DepGraph.build`.  Python
receives the node and reads `node.module`; the build loop only calls this
with a present module name (a `None` module makes Python crash on
`None.split`, modelled in `resolveFname`).  Returns the first source whose
basename equals the derived filename. -/
def guess_file (module : String) : List String → Option String
  | [] => none
  | source :: rest =>
      if basename source == derivedFileName module then some source
      else guess_file module rest

/-- Parse outcome of one file's text under the tool's marker grammar.
`moduleDecl name deps body` models a match of the module-declaration
pattern `mod_re` with module name, the quoted names `dep_re` extracts from
the dependency argument, and the body; `includeDecl deps` models a match
of the include pattern `inc_re`; `plain` models text matching neither. -/
inductive FileData where
  | moduleDecl (name : String) (deps : List String) (body : String)
  | includeDecl (deps : List String)
  | plain
deriving Repr, DecidableEq

/-- The dependency names the parser extracts from a file. -/
def fdDeps : FileData → List String
  | .moduleDecl _ deps _ => deps
  | .includeDecl deps => deps
  | .plain => []

/-- The filesystem visible to the build: path to parsed content. -/
abbrev FileSystem := List (String × FileData)

/-- Model of `os.path.isfile`. -/
def isfile (fs : FileSystem) (p : String) : Bool := (fs.lookup p).isSome

/-- State threaded through `DepGraph.build`: the heap of every allocated
`DepNode` object, the registry `cache` (newest entry first) and
`self.all_nodes`. -/
structure BuildState where
  heap : List DepNode
  cache : List (String × Nat)
  all_nodes : List Nat
deriving Repr, DecidableEq

/-- Model of the local function `has_node`. -/
def has_node (st : BuildState) (mod_name : String) (only_if_loaded : Bool) : Bool :=
  match st.cache.lookup mod_name with
  | some i => !(only_if_loaded && !(heapGet st.heap i).loaded)
  | none => false

/-- A freshly constructed `DepNode(module, file_name)`. -/
def newNode (module : Option String) (file_name : Option String) : DepNode :=
  { module := module, file_name := file_name, is_module := true, loaded := false,
    content := "", dependencies := [], dependents := [], visited := false }

/-- Model of the local function `get_node`: fetch the cached node for
`mod_name`, or allocate a fresh `DepNode(mod_name)` registered in both
`self.all_nodes` and the cache. -/
def get_node (st : BuildState) (mod_name : String) : Nat × BuildState :=
  if has_node st mod_name false then
    ((st.cache.lookup mod_name).getD 0, st)
  else
    (st.heap.length,
      { heap := st.heap ++ [newNode (some mod_name) none],
        cache := (mod_name, st.heap.length) :: st.cache,
        all_nodes := st.all_nodes ++ [st.heap.length] })

/-- Model of the local function `add_node_dep`: link `dep_name` as a
dependency of the node at index `node`, enqueueing the dependency node when
it is newly encountered. -/
def add_node_dep (st : BuildState) (queue : List Nat) (node : Nat) (dep_name : String) :
    BuildState × List Nat :=
  let existed := has_node st dep_name false
  let r := get_node st dep_name
  let st2 := { r.2 with heap := push_dependency r.2.heap node r.1 }
  if existed then (st2, queue) else (st2, queue ++ [r.1])

/-- Python truthiness of the optional `file_name` string (an empty string is
falsy in `node.file_name or guess_file(node)`). -/
def truthy : Option String → Bool
  | none => false
  | some s => !(s == "")

/-- Python rendering of the format argument in the failure message. -/
def pyOptStr : Option String → String
  | none => "None"
  | some s => s

/-- The message of the `BuildException` raised when no file is found. -/
def missingMsg (node : DepNode) : String :=
  "Could not find file for module " ++ pyOptStr node.module

/-- Model of `fname = node.file_name or guess_file(node)`: when `file_name`
is falsy and `node.module` is `None`, the call `node.module.split(...)`
inside `guess_file` crashes Python. -/
def resolveFname (sources : List String) (node : DepNode) : Except BErr (Option String) :=
  if truthy node.file_name then .ok node.file_name
  else
    match node.module with
    | some m => .ok (guess_file m sources)
    | none => .error .pyCrash

/-- The worklist skip test `has_node(node.module, only_if_loaded=True)`
(`None` is never a cache key, so a module-less node is never skipped). -/
def skipLoaded (st : BuildState) (node : DepNode) : Bool :=
  match node.module with
  | some m => has_node st m true
  | none => false

/-- The `for dep_name in dep_names: add_node_dep(target, dep_name)` loop
shared by the two parser branches. -/
def dep_loop (target : Nat) (deps : List String) (st : BuildState) (queue : List Nat) :
    BuildState × List Nat :=
  deps.foldl (fun p d => add_node_dep p.1 p.2 target d) (st, queue)

/-- The state mutation of the module branch: `node = get_node(name)`, then
`node.file_name = fname`, `node.content = body`, `node.loaded = True`. -/
def moduleStep (st : BuildState) (fname name body : String) : BuildState :=
  let r := get_node st name
  { r.2 with heap := updNode r.2.heap r.1 (fun n =>
      { n with file_name := some fname, content := body, loaded := true }) }

/-- The state mutation of the include branch: `file_node = get_node(fname)`,
then `file_node.file_name = fname`, `file_node.is_module = False`. -/
def includeStep (st : BuildState) (fname : String) : BuildState :=
  let r := get_node st fname
  { r.2 with heap := updNode r.2.heap r.1 (fun n =>
      { n with file_name := some fname, is_module := false }) }

/-- One iteration of the worklist loop of `DepGraph.build`, processing the
node at index `nidx` with worklist tail `queue`.  Faithful to the source,
the include branch creates and marks the file-keyed node (inside
`includeStep`) but attaches the dependency edges to the worklist node
`nidx`. -/
def processNode (fs : FileSystem) (sources : List String) (st : BuildState)
    (nidx : Nat) (queue : List Nat) : Except BErr (BuildState × List Nat) :=
  let node := heapGet st.heap nidx
  if skipLoaded st node then .ok (st, queue)
  else
    match resolveFname sources node with
    | .error e => .error e
    | .ok none => .error (.buildException (missingMsg node))
    | .ok (some fname) =>
      match fs.lookup fname with
      | none => .error (.buildException (missingMsg node))
      | some fd =>
        match fd with
        | .moduleDecl name deps body =>
            .ok (dep_loop (get_node st name).1 deps (moduleStep st fname name body) queue)
        | .includeDecl deps =>
            if deps.length > 0 then
              .ok (dep_loop nidx deps (includeStep st fname) queue)
            else .ok (st, queue)
        | .plain => .ok (st, queue)

/-- The worklist loop `for node in queue:` (new items are appended behind
the remaining items, which matches Python's iteration over the growing
list).  `none` reports fuel exhaustion; `build` uses a bound that is proved
sufficient below. -/
def buildLoopF (fs : FileSystem) (sources : List String) :
    Nat → BuildState → List Nat → Option (Except BErr BuildState)
  | 0, _, _ => none
  | _ + 1, st, [] => some (.ok st)
  | fuel + 1, st, n :: rest =>
      match processNode fs sources st n rest with
      | .error e => some (.error e)
      | .ok p => buildLoopF fs sources fuel p.1 p.2

/-- Model of class `DepGraph` as returned by `build`. -/
structure DepGraph where
  heap : List DepNode
  all_nodes : List Nat
  leaves : List Nat
deriving Repr, DecidableEq, Inhabited

/-- Every dependency name extractable from some file of the filesystem;
every name the loop ever appends to the worklist comes from here, which
bounds the loop length. -/
def fsNames (fs : FileSystem) : List String :=
  fs.foldr (fun p acc => fdDeps p.2 ++ acc) []

/-- Fuel that suffices for the whole worklist (proved below). -/
def buildFuel (inputs : List String) (fs : FileSystem) : Nat :=
  inputs.length + (fsNames fs).length + 1

/-- The seed nodes `[DepNode(file_name=f) for f in inputs]`. -/
def initHeap (inputs : List String) : List DepNode :=
  inputs.map (fun f => newNode none (some f))

/-- The build-local state at entry of the worklist loop. -/
def initState (inputs : List String) : BuildState :=
  { heap := initHeap inputs, cache := [], all_nodes := [] }

/-- The seed worklist: the indices of the input nodes. -/
def initQueue (inputs : List String) : List Nat := List.range inputs.length

/-- Model of `DepGraph.build`: drain the worklist, then collect into
`leaves` every created node whose dependency list is empty. -/
def build (inputs sources : List String) (fs : FileSystem) : Except BErr DepGraph :=
  match buildLoopF fs sources (buildFuel inputs fs) (initState inputs) (initQueue inputs) with
  | none => .error .outOfFuel
  | some (.error e) => .error e
  | some (.ok st) =>
      .ok { heap := st.heap, all_nodes := st.all_nodes,
            leaves := st.all_nodes.filter (fun i => (heapGet st.heap i).dependencies.isEmpty) }

/-- Model of the recursive `visit` of `DepGraph.evaluate_chain`: skip
visited nodes, otherwise mark visited, visit every dependent, then prepend
the node to the chain.  `fuel` bounds the recursion depth; every level
marks a fresh node visited, so `heap.length + 1` always suffices. -/
def visitF : Nat → Nat → List Nat × List DepNode → List Nat × List DepNode
  | 0, _, st => st
  | fuel + 1, n, st =>
      match st.2[n]? with
      | none => st
      | some node =>
          if node.visited then st
          else
            let st1 := node.dependents.foldl (fun s d => visitF fuel d s)
              (st.1, st.2.set n { node with visited := true })
            (n :: st1.1, st1.2)

/-- Model of `DepGraph.evaluate_chain`: visit every leaf in order; the
chain is returned together with the graph, whose nodes now carry the
visited flags that Python mutates in place. -/
def evaluate_chain (g : DepGraph) : List Nat × DepGraph :=
  let st := g.leaves.foldl (fun s n => visitF (g.heap.length + 1) n s) ([], g.heap)
  (st.1, { g with heap := st.2 })

/-- Copy loop of `gather`, returning the performed copies in order; a node
whose `file_name` is `None` crashes Python (`os.path.basename(None)`),
truncating the trace at that point. -/
def gatherCopies (output : String) (heap : List DepNode) :
    List Nat → List (String × String) × Option BErr
  | [] => ([], none)
  | i :: rest =>
      match (heapGet heap i).file_name with
      | none => ([], some .pyCrash)
      | some f =>
          let r := gatherCopies output heap rest
          ((f, output ++ "/" ++ basename f) :: r.1, r.2)

/-- Model of the `gather` command.  Filesystem effects are represented by
the returned copy trace; `dirs` lists the paths for which `os.path.isdir`
is true.  When the output target is missing or not a directory, the
`BuildException` is raised before any copy is attempted. -/
def gather (g : DepGraph) (output : Option String) (dirs : List String) :
    List (String × String) × Option BErr :=
  match output with
  | some o =>
      if dirs.contains o then gatherCopies o g.heap g.all_nodes
      else ([], some (.buildException "Output must be directory"))
  | none => ([], some (.buildException "Output must be directory"))

/-! ### Basic facts about the resolver and the gather command -/

/-- Claim C8: for every module name and candidate source list, `guess_file`
derives the filename as the last dot-separated segment of the module name
plus the fixed `.js` extension and returns the first candidate whose
basename equals that name exactly; it returns `none` when no candidate's
basename matches. -/
theorem C8_guess_file_first_match (m : String) (sources : List String) :
    (guess_file m sources = none ↔ ∀ s ∈ sources, basename s ≠ derivedFileName m) ∧
    (∀ f, guess_file m sources = some f →
      basename f = derivedFileName m ∧
      ∃ l1 l2, sources = l1 ++ f :: l2 ∧ ∀ s ∈ l1, basename s ≠ derivedFileName m) := by
  induction sources with
  | nil =>
      refine ⟨by simp [guess_file], ?_⟩
      intro f h
      simp [guess_file] at h
  | cons s rest ih =>
      by_cases hs : basename s = derivedFileName m
      · refine ⟨by simp [guess_file, hs], ?_⟩
        intro f hf
        rw [guess_file, if_pos (by simp [hs])] at hf
        cases hf
        exact ⟨hs, [], rest, by simp, by simp⟩
      · have hs2 : (basename s == derivedFileName m) = false := by
          simpa using hs
        refine ⟨?_, ?_⟩
        · rw [guess_file, if_neg (by simp [hs2])]
          simpa [ih.1] using fun _ => hs
        · intro f hf
          rw [guess_file, if_neg (by simp [hs2])] at hf
          obtain ⟨hb, l1, l2, heq, hl1⟩ := ih.2 f hf
          refine ⟨hb, s :: l1, l2, by simp [heq], ?_⟩
          intro x hx
          rcases List.mem_cons.mp hx with h | h
          · exact h ▸ hs
          · exact hl1 x h

/-- Witness for C8 at a concrete input. -/
theorem C8_guess_file_first_match_witness :
    basename "Mod.js" = derivedFileName "a.Mod" ∧
    ∃ l1 l2, ["Other.js", "Mod.js"] = l1 ++ "Mod.js" :: l2 ∧
      ∀ s ∈ l1, basename s ≠ derivedFileName "a.Mod" :=
  (C8_guess_file_first_match "a.Mod" ["Other.js", "Mod.js"]).2 "Mod.js" rfl

/-- Claim C7: for every graph and every output argument that is not an
existing directory (including a missing output), `gather` reports the
uniform build failure and its copy trace is empty: no copy is performed. -/
theorem C7_gather_requires_directory (g : DepGraph) (output : Option String)
    (dirs : List String) (h : ∀ o, output = some o → dirs.contains o = false) :
    gather g output dirs = ([], some (.buildException "Output must be directory")) := by
  cases output with
  | none => rfl
  | some o =>
      have hc : dirs.contains o = false := h o rfl
      simp only [gather]
      rw [hc]
      rfl

/-- Witness for C7 at a concrete input. -/
theorem C7_gather_requires_directory_witness :
    gather { heap := [newNode (some "a.Mod") (some "Mod.js")], all_nodes := [0], leaves := [0] }
      (some "out.txt") ["real_dir"] =
      ([], some (.buildException "Output must be directory")) :=
  C7_gather_requires_directory _ _ _ (by intro o ho; cases ho; rfl)

/-! ### Heap access lemmas -/

/-- The dependency list of the node at index `i`. -/
def depsAt (heap : List DepNode) (i : Nat) : List Nat := (heapGet heap i).dependencies

/-- The dependent list of the node at index `i`. -/
def depntsAt (heap : List DepNode) (i : Nat) : List Nat := (heapGet heap i).dependents

theorem updNode_length (heap : List DepNode) (i : Nat) (f : DepNode → DepNode) :
    (updNode heap i f).length = heap.length := by
  unfold updNode
  cases h : heap[i]? with
  | none => rfl
  | some n => simp

theorem updNode_of_ge (heap : List DepNode) (i : Nat) (f : DepNode → DepNode)
    (h : heap.length ≤ i) : updNode heap i f = heap := by
  unfold updNode
  rw [List.getElem?_eq_none h]

theorem heapGet_updNode_ne (heap : List DepNode) (i : Nat) (f : DepNode → DepNode)
    (j : Nat) (h : j ≠ i) : heapGet (updNode heap i f) j = heapGet heap j := by
  unfold updNode
  cases hx : heap[i]? with
  | none => rfl
  | some n =>
      unfold heapGet
      rcases Nat.lt_or_ge j heap.length with hj | hj
      · rw [List.getD_eq_getElem _ _ (by simpa using hj),
          List.getD_eq_getElem _ _ hj, List.getElem_set_ne (by omega)]
      · rw [List.getD_eq_default _ _ (by simpa using hj), List.getD_eq_default _ _ hj]

theorem heapGet_updNode_self (heap : List DepNode) (i : Nat) (f : DepNode → DepNode)
    (h : i < heap.length) : heapGet (updNode heap i f) i = f (heapGet heap i) := by
  unfold updNode
  rw [List.getElem?_eq_getElem h]
  unfold heapGet
  rw [List.getD_eq_getElem _ _ (by simpa using h), List.getD_eq_getElem _ _ h,
    List.getElem_set_self]

theorem heapGet_out (heap : List DepNode) (i : Nat) (h : heap.length ≤ i) :
    heapGet heap i = default := by
  unfold heapGet
  exact List.getD_eq_default _ _ h

theorem push_dependency_length (heap : List DepNode) (a b : Nat) :
    (push_dependency heap a b).length = heap.length := by
  unfold push_dependency
  rw [updNode_length, updNode_length]

theorem heapGet_push_dependency (heap : List DepNode) (a b : Nat)
    (ha : a < heap.length) (hb : b < heap.length) (x : Nat) :
    heapGet (push_dependency heap a b) x =
      { heapGet heap x with
        dependencies := (heapGet heap x).dependencies ++ (if x = a then [b] else []),
        dependents := (heapGet heap x).dependents ++ (if x = b then [a] else []) } := by
  unfold push_dependency
  by_cases hxa : x = a <;> by_cases hxb : x = b
  · subst hxa
    subst hxb
    rw [heapGet_updNode_self _ _ _ (by rw [updNode_length]; exact ha),
      heapGet_updNode_self _ _ _ ha]
    simp
  · subst hxa
    rw [heapGet_updNode_ne _ _ _ _ hxb, heapGet_updNode_self _ _ _ ha]
    simp [hxb]
  · subst hxb
    rw [heapGet_updNode_self _ _ _ (by rw [updNode_length]; exact hb),
      heapGet_updNode_ne _ _ _ _ hxa]
    simp [hxa]
  · rw [heapGet_updNode_ne _ _ _ _ hxb, heapGet_updNode_ne _ _ _ _ hxa]
    simp [hxa, hxb]

/-! ### Edge symmetry (claim C4) -/

/-- Pairwise edge symmetry of the node heap: `B` is among `A`'s
dependencies exactly when `A` is among `B`'s dependents. -/
def EdgeSymm (heap : List DepNode) : Prop :=
  ∀ a b, b ∈ depsAt heap a ↔ a ∈ depntsAt heap b

/-- A sequence of `push_dependency(A, B)` calls. -/
def pushSeq (ops : List (Nat × Nat)) (heap : List DepNode) : List DepNode :=
  ops.foldl (fun h op => push_dependency h op.1 op.2) heap

theorem push_dependency_EdgeSymm {heap : List DepNode} {a b : Nat}
    (ha : a < heap.length) (hb : b < heap.length) (hsym : EdgeSymm heap) :
    EdgeSymm (push_dependency heap a b) := by
  intro x y
  have h := hsym x y
  unfold depsAt depntsAt at h ⊢
  rw [heapGet_push_dependency heap a b ha hb x, heapGet_push_dependency heap a b ha hb y]
  by_cases hxa : x = a
  · subst hxa
    by_cases hyb : y = b
    · subst hyb
      simp
    · simp [hyb, h]
  · by_cases hyb : y = b
    · subst hyb
      simp [hxa, h]
    · simp [hxa, hyb, h]

/-- Claim C4: for all nodes A and B, after any sequence of valid
`push_dependency` operations starting from a symmetric heap, B is in A's
dependencies iff A is in B's dependents; and each single
`push_dependency(A, B)` appends B to A's dependencies and A to B's
dependents together. -/
theorem C4_push_dependency_symmetric (heap : List DepNode) (ops : List (Nat × Nat))
    (hops : ∀ op ∈ ops, op.1 < heap.length ∧ op.2 < heap.length)
    (hsym : EdgeSymm heap) :
    EdgeSymm (pushSeq ops heap) ∧
    ∀ a b, a < heap.length → b < heap.length →
      depsAt (push_dependency heap a b) a = depsAt heap a ++ [b] ∧
      depntsAt (push_dependency heap a b) b = depntsAt heap b ++ [a] := by
  constructor
  · induction ops generalizing heap with
    | nil => exact hsym
    | cons op rest ih =>
        have hop := hops op (List.mem_cons_self op rest)
        have hlen := push_dependency_length heap op.1 op.2
        simp only [pushSeq, List.foldl_cons]
        exact ih (push_dependency heap op.1 op.2)
          (fun p hp => by rw [hlen]; exact hops p (List.mem_cons_of_mem op hp))
          (push_dependency_EdgeSymm hop.1 hop.2 hsym)
  · intro a b ha hb
    constructor
    · unfold depsAt
      rw [heapGet_push_dependency heap a b ha hb a]
      simp
    · unfold depntsAt
      rw [heapGet_push_dependency heap a b ha hb b]
      simp

/-- Witness for C4 at a concrete two-node heap with one push. -/
theorem C4_push_dependency_symmetric_witness :
    EdgeSymm (pushSeq [(0, 1)] [newNode (some "A") none, newNode (some "B") none]) ∧
    ∀ a b, a < 2 → b < 2 →
      depsAt (push_dependency [newNode (some "A") none, newNode (some "B") none] a b) a =
        depsAt [newNode (some "A") none, newNode (some "B") none] a ++ [b] ∧
      depntsAt (push_dependency [newNode (some "A") none, newNode (some "B") none] a b) b =
        depntsAt [newNode (some "A") none, newNode (some "B") none] b ++ [a] :=
  C4_push_dependency_symmetric [newNode (some "A") none, newNode (some "B") none] [(0, 1)]
    (by
      intro op hop
      have h := List.mem_singleton.mp hop
      subst h
      exact ⟨by decide, by decide⟩)
    (by
      have hd : ∀ i, depsAt [newNode (some "A") none, newNode (some "B") none] i = [] ∧
          depntsAt [newNode (some "A") none, newNode (some "B") none] i = [] := by
        intro i
        match i with
        | 0 => exact ⟨rfl, rfl⟩
        | 1 => exact ⟨rfl, rfl⟩
        | n + 2 =>
            unfold depsAt depntsAt
            rw [heapGet_out _ _ (by simp)]
            exact ⟨rfl, rfl⟩
      intro a b
      rw [(hd a).1, (hd b).2]
      simp)


/-! ### The frame property of `evaluate_chain` (claim C10) -/

/-- Two nodes that agree on every field except possibly `visited`. -/
def sameExceptVisited (n m : DepNode) : Prop :=
  n.module = m.module ∧ n.file_name = m.file_name ∧ n.is_module = m.is_module ∧
  n.loaded = m.loaded ∧ n.content = m.content ∧ n.dependencies = m.dependencies ∧
  n.dependents = m.dependents

theorem sameExceptVisited_refl (n : DepNode) : sameExceptVisited n n :=
  ⟨rfl, rfl, rfl, rfl, rfl, rfl, rfl⟩

theorem sameExceptVisited_trans {a b c : DepNode}
    (h1 : sameExceptVisited a b) (h2 : sameExceptVisited b c) : sameExceptVisited a c := by
  obtain ⟨a1, a2, a3, a4, a5, a6, a7⟩ := h1
  obtain ⟨b1, b2, b3, b4, b5, b6, b7⟩ := h2
  exact ⟨a1.trans b1, a2.trans b2, a3.trans b3, a4.trans b4, a5.trans b5,
    a6.trans b6, a7.trans b7⟩

/-- Heaps that agree everywhere except possibly on visited flags. -/
def HeapFrame (h1 h2 : List DepNode) : Prop :=
  h1.length = h2.length ∧ ∀ i, sameExceptVisited (heapGet h1 i) (heapGet h2 i)

theorem HeapFrame_refl (h : List DepNode) : HeapFrame h h :=
  ⟨rfl, fun i => sameExceptVisited_refl _⟩

theorem HeapFrame_trans {h1 h2 h3 : List DepNode}
    (a : HeapFrame h1 h2) (b : HeapFrame h2 h3) : HeapFrame h1 h3 :=
  ⟨a.1.trans b.1, fun i => sameExceptVisited_trans (a.2 i) (b.2 i)⟩

theorem heapGet_of_getElem? {heap : List DepNode} {n : Nat} {node : DepNode}
    (hx : heap[n]? = some node) : heapGet heap n = node := by
  unfold heapGet
  have hlt : n < heap.length := by
    by_contra hc
    rw [List.getElem?_eq_none (le_of_not_lt hc)] at hx
    cases hx
  rw [List.getD_eq_getElem _ _ hlt]
  rw [List.getElem?_eq_getElem hlt] at hx
  exact Option.some.inj hx

theorem lt_length_of_getElem? {heap : List DepNode} {n : Nat} {node : DepNode}
    (hx : heap[n]? = some node) : n < heap.length := by
  by_contra hc
  rw [List.getElem?_eq_none (le_of_not_lt hc)] at hx
  cases hx

theorem HeapFrame_set_visited {heap : List DepNode} {n : Nat} {node : DepNode}
    (hx : heap[n]? = some node) :
    HeapFrame (heap.set n { node with visited := true }) heap := by
  have hlt := lt_length_of_getElem? hx
  refine ⟨by simp, ?_⟩
  intro i
  by_cases hi : i = n
  · subst hi
    unfold heapGet
    rw [List.getD_eq_getElem _ _ (by simpa using hlt), List.getD_eq_getElem _ _ hlt,
      List.getElem_set_self]
    have : heap[i] = node := by
      rw [List.getElem?_eq_getElem hlt] at hx
      exact Option.some.inj hx
    rw [this]
    exact ⟨rfl, rfl, rfl, rfl, rfl, rfl, rfl⟩
  · unfold heapGet
    rcases Nat.lt_or_ge i heap.length with h2 | h2
    · rw [List.getD_eq_getElem _ _ (by simpa using h2), List.getD_eq_getElem _ _ h2,
        List.getElem_set_ne (by omega)]
      exact sameExceptVisited_refl _
    · rw [List.getD_eq_default _ _ (by simpa using h2), List.getD_eq_default _ _ h2]
      exact sameExceptVisited_refl _

theorem visitF_frame : ∀ (fuel n : Nat) (st : List Nat × List DepNode),
    HeapFrame (visitF fuel n st).2 st.2 := by
  intro fuel
  induction fuel with
  | zero => intro n st; exact HeapFrame_refl _
  | succ fuel ih =>
      intro n st
      rw [visitF]
      cases hx : st.2[n]? with
      | none => exact HeapFrame_refl _
      | some node =>
          by_cases hv : node.visited
          · simp only [hv, if_true]
            exact HeapFrame_refl _
          · simp only [hv, if_false, Bool.false_eq_true]
            have hfold : ∀ (ds : List Nat) (s : List Nat × List DepNode),
                HeapFrame ((ds.foldl (fun s d => visitF fuel d s) s)).2 s.2 := by
              intro ds
              induction ds with
              | nil => intro s; exact HeapFrame_refl _
              | cons d ds ihd =>
                  intro s
                  simp only [List.foldl_cons]
                  exact HeapFrame_trans (ihd _) (ih d s)
            exact HeapFrame_trans (hfold _ _) (HeapFrame_set_visited hx)

theorem visitFold_frame (fuel : Nat) (ds : List Nat) (st : List Nat × List DepNode) :
    HeapFrame ((ds.foldl (fun s n => visitF fuel n s) st)).2 st.2 := by
  induction ds generalizing st with
  | nil => exact HeapFrame_refl _
  | cons d ds ihd =>
      simp only [List.foldl_cons]
      exact HeapFrame_trans (ihd _) (visitF_frame fuel d st)

/-- Claim C10: `evaluate_chain` mutates only visited flags: the graph's
`leaves` and `all_nodes` collections are unchanged and every node keeps its
module name, file name, is_module flag, loaded flag, content, dependency
list and dependent list. -/
theorem C10_evaluate_chain_mutates_only_visited (g : DepGraph) :
    (evaluate_chain g).2.all_nodes = g.all_nodes ∧
    (evaluate_chain g).2.leaves = g.leaves ∧
    (evaluate_chain g).2.heap.length = g.heap.length ∧
    ∀ i, sameExceptVisited (heapGet (evaluate_chain g).2.heap i) (heapGet g.heap i) := by
  have h := visitFold_frame (g.heap.length + 1) g.leaves ([], g.heap)
  exact ⟨rfl, rfl, h.1, h.2⟩

/-! ### Leaf collection (claim C5) and concrete build examples -/

/-- Claim C5: after the worklist is exhausted, `leaves` is populated by a
separate pass over all created nodes, and a node is in `leaves` exactly
when it is a created node whose dependency list is empty at that time. -/
theorem C5_leaves_iff_empty_dependencies (inputs sources : List String) (fs : FileSystem)
    (g : DepGraph) (hb : build inputs sources fs = .ok g) :
    g.leaves = g.all_nodes.filter (fun i => (heapGet g.heap i).dependencies.isEmpty) ∧
    ∀ i, i ∈ g.leaves ↔ i ∈ g.all_nodes ∧ (heapGet g.heap i).dependencies = [] := by
  unfold build at hb
  cases hloop : buildLoopF fs sources (buildFuel inputs fs) (initState inputs) (initQueue inputs) with
  | none => rw [hloop] at hb; cases hb
  | some r =>
      rw [hloop] at hb
      cases r with
      | error e => cases hb
      | ok st =>
          rw [Except.ok.injEq] at hb
          subst hb
          refine ⟨rfl, ?_⟩
          intro i
          simp [List.mem_filter, List.isEmpty_iff]

/-- Extract the graph from a successful build result. -/
def okGraph (r : Except BErr DepGraph) : DepGraph :=
  match r with
  | .ok g => g
  | .error _ => default

/-- Concrete filesystem: an input module file depending on a second module
found via the search path. -/
def fsTwoMods : FileSystem :=
  [("foo.js", FileData.moduleDecl "a.b.Foo" ["a.b.Bar"] "foobody"),
   ("Bar.js", FileData.moduleDecl "a.b.Bar" [] "barbody")]

/-- The graph built from `fsTwoMods`. -/
def gTwoMods : DepGraph := okGraph (build ["foo.js"] ["Bar.js"] fsTwoMods)

/-- Witness for C5 at a concrete build. -/
theorem C5_leaves_iff_empty_dependencies_witness :
    gTwoMods.leaves =
      gTwoMods.all_nodes.filter (fun i => (heapGet gTwoMods.heap i).dependencies.isEmpty) ∧
    ∀ i, i ∈ gTwoMods.leaves ↔
      i ∈ gTwoMods.all_nodes ∧ (heapGet gTwoMods.heap i).dependencies = [] :=
  C5_leaves_iff_empty_dependencies ["foo.js"] ["Bar.js"] fsTwoMods gTwoMods rfl

/-- Concrete filesystem for scenario 3 of the spec: an input file carrying
only an include marker that references one known module. -/
def fsInclude : FileSystem :=
  [("inc.js", FileData.includeDecl ["a.Mod"]),
   ("Mod.js", FileData.moduleDecl "a.Mod" [] "modbody")]

/-- The graph built from `fsInclude`. -/
def gInclude : DepGraph := okGraph (build ["inc.js"] ["Mod.js"] fsInclude)

/-- Claim C2, evaluated at the failing input: building a file that contains
only an include marker referencing the known module `a.Mod` does create a
non-module node keyed by the file path (index 1), but that node's
dependency list stays empty and the referenced module's dependents list is
`[0]`, the anonymous worklist wrapper node (module `None`, absent from
`all_nodes`) — because `add_node_dep` is called on the loop variable
`node` instead of `file_node`.  The claim expects index 1 to depend on the
module node (index 2) and to appear among its dependents. -/
theorem C2_include_file_node_not_linked :
    build ["inc.js"] ["Mod.js"] fsInclude = .ok gInclude ∧
    gInclude.all_nodes = [1, 2] ∧
    (heapGet gInclude.heap 1).module = some "inc.js" ∧
    (heapGet gInclude.heap 1).is_module = false ∧
    depsAt gInclude.heap 1 = [] ∧
    (heapGet gInclude.heap 2).module = some "a.Mod" ∧
    depntsAt gInclude.heap 2 = [0] ∧
    (heapGet gInclude.heap 0).module = none ∧
    depsAt gInclude.heap 0 = [2] ∧
    0 ∉ gInclude.all_nodes :=
  ⟨rfl, rfl, rfl, rfl, rfl, rfl, rfl, rfl, rfl, by decide⟩

/-- Counterexample to claim C3 as stated: the name `foo.js` is referenced
as an input of this build, yet no node at all exists under that name (the
node parsed from `foo.js` is registered under its declared module name
`a.b.Foo`), so it is not the case that exactly one node exists for every
name referenced as an input. -/
theorem C3_counterexample_input_name_has_no_node :
    build ["foo.js"] ["Bar.js"] fsTwoMods = .ok gTwoMods ∧
    "foo.js" ∈ ["foo.js"] ∧
    (gTwoMods.all_nodes.filter
      (fun i => (heapGet gTwoMods.heap i).module == some "foo.js")).length = 0 :=
  ⟨rfl, by decide, by decide⟩

/-! ### The worklist loop as a step relation -/

/-- Reachability between worklist-loop configurations of `DepGraph.build`:
zero or more successful iterations of `processNode`. -/
inductive LoopReach (fs : FileSystem) (sources : List String) :
    BuildState → List Nat → BuildState → List Nat → Prop
  | refl (st : BuildState) (q : List Nat) : LoopReach fs sources st q st q
  | step {st : BuildState} {n : Nat} {rest : List Nat} {st1 : BuildState} {q1 : List Nat}
      {st2 : BuildState} {q2 : List Nat}
      (h : processNode fs sources st n rest = .ok (st1, q1))
      (htail : LoopReach fs sources st1 q1 st2 q2) :
      LoopReach fs sources st (n :: rest) st2 q2

/-- Frame facts relating a build state to any later one: the heap only
grows, existing nodes keep their module name and visited flag, a loaded
node stays loaded, newly allocated nodes carry a module name, and the
cache only grows at the front. -/
structure StepOK (st st' : BuildState) : Prop where
  hlen : st.heap.length ≤ st'.heap.length
  hmod : ∀ i, i < st.heap.length → (heapGet st'.heap i).module = (heapGet st.heap i).module
  hmodNew : ∀ i, st.heap.length ≤ i → i < st'.heap.length →
    ((heapGet st'.heap i).module).isSome
  hload : ∀ i, (heapGet st.heap i).loaded = true → (heapGet st'.heap i).loaded = true
  hvis : ∀ i, (heapGet st'.heap i).visited = (heapGet st.heap i).visited
  hfile : ∀ i, truthy (heapGet st.heap i).file_name = true →
    truthy (heapGet st'.heap i).file_name = true
  hcache : ∃ pre, st'.cache = pre ++ st.cache

theorem StepOK_refl (st : BuildState) : StepOK st st :=
  ⟨le_refl _, fun _ _ => rfl, fun i h1 h2 => absurd h1 (not_le.mpr h2),
   fun _ h => h, fun _ => rfl, fun _ h => h, ⟨[], rfl⟩⟩

theorem StepOK_trans {s1 s2 s3 : BuildState} (a : StepOK s1 s2) (b : StepOK s2 s3) :
    StepOK s1 s3 := by
  refine ⟨a.hlen.trans b.hlen, ?_, ?_, ?_, ?_, ?_, ?_⟩
  · intro i hi
    rw [b.hmod i (lt_of_lt_of_le hi a.hlen), a.hmod i hi]
  · intro i hi hi3
    rcases Nat.lt_or_ge i s2.heap.length with h2 | h2
    · rw [b.hmod i h2]
      exact a.hmodNew i hi h2
    · exact b.hmodNew i h2 hi3
  · intro i h
    exact b.hload i (a.hload i h)
  · intro i
    rw [b.hvis i, a.hvis i]
  · intro i h
    exact b.hfile i (a.hfile i h)
  · obtain ⟨p1, hp1⟩ := a.hcache
    obtain ⟨p2, hp2⟩ := b.hcache
    exact ⟨p2 ++ p1, by rw [hp2, hp1, List.append_assoc]⟩

theorem heapGet_append_lt (heap l : List DepNode) (i : Nat) (h : i < heap.length) :
    heapGet (heap ++ l) i = heapGet heap i := by
  unfold heapGet
  rw [List.getD_eq_getElem _ _ (by simp; omega), List.getD_eq_getElem _ _ h,
    List.getElem_append_left h]

theorem heapGet_append_self (heap : List DepNode) (x : DepNode) :
    heapGet (heap ++ [x]) heap.length = x := by
  unfold heapGet
  rw [List.getD_eq_getElem _ _ (by simp)]
  simp

theorem get_node_StepOK (st : BuildState) (name : String) :
    StepOK st (get_node st name).2 := by
  unfold get_node
  by_cases h : has_node st name false
  · rw [if_pos h]
    exact StepOK_refl st
  · rw [if_neg h]
    refine ⟨by simp, ?_, ?_, ?_, ?_, ?_, ⟨[(name, st.heap.length)], rfl⟩⟩
    · intro i hi
      rw [heapGet_append_lt _ _ _ hi]
    · intro i hi hi2
      simp at hi2
      have : i = st.heap.length := by omega
      subst this
      rw [heapGet_append_self]
      simp [newNode]
    · intro i hl
      rcases Nat.lt_or_ge i st.heap.length with h2 | h2
      · rw [heapGet_append_lt _ _ _ h2]; exact hl
      · rw [heapGet_out _ _ h2] at hl
        cases hl
    · intro i
      rcases Nat.lt_or_ge i st.heap.length with h2 | h2
      · rw [heapGet_append_lt _ _ _ h2]
      · rcases Nat.lt_or_ge i (st.heap ++ [newNode (some name) none]).length with h3 | h3
        · simp at h3
          have : i = st.heap.length := by omega
          subst this
          rw [heapGet_append_self, heapGet_out _ _ h2]
          rfl
        · rw [heapGet_out _ _ h3, heapGet_out _ _ h2]
    · intro i hf
      rcases Nat.lt_or_ge i st.heap.length with h2 | h2
      · rw [heapGet_append_lt _ _ _ h2]
        exact hf
      · rw [heapGet_out _ _ h2] at hf
        cases hf

/-! ### Registry lemmas -/

theorem lookup_mem {l : List (String × Nat)} {name : String} {i : Nat}
    (h : l.lookup name = some i) : (name, i) ∈ l := by
  induction l with
  | nil => cases h
  | cons p rest ih =>
      rw [List.lookup_cons] at h
      by_cases hk : (name == p.1) = true
      · rw [hk] at h
        have h2 : p.2 = i := Option.some.inj h
        have hname : name = p.1 := by simpa using hk
        rw [hname, ← h2]
        exact List.mem_cons_self _ _
      · rw [Bool.not_eq_true] at hk
        rw [hk] at h
        exact List.mem_cons_of_mem _ (ih h)

theorem not_mem_keys_of_lookup_eq_none {l : List (String × Nat)} {name : String}
    (h : l.lookup name = none) : name ∉ l.map Prod.fst := by
  induction l with
  | nil => simp
  | cons p rest ih =>
      rw [List.lookup_cons] at h
      by_cases hk : (name == p.1) = true
      · rw [hk] at h
        cases h
      · rw [Bool.not_eq_true] at hk
        rw [hk] at h
        simp only [List.map_cons, List.mem_cons]
        rintro (h1 | h1)
        · exact absurd (by simpa using h1) (by simpa using hk)
        · exact ih h h1

theorem lookup_of_keysNodup {l : List (String × Nat)} {name : String} {i : Nat}
    (hnd : (l.map Prod.fst).Nodup) (hmem : (name, i) ∈ l) : l.lookup name = some i := by
  induction l with
  | nil => cases hmem
  | cons p rest ih =>
      rw [List.map_cons, List.nodup_cons] at hnd
      rw [List.lookup_cons]
      rcases List.mem_cons.mp hmem with h1 | h1
      · rw [← h1]
        simp
      · by_cases hk : (name == p.1) = true
        · exfalso
          apply hnd.1
          have he : name = p.1 := by simpa using hk
          rw [← he]
          exact List.mem_map_of_mem Prod.fst h1
        · rw [Bool.not_eq_true] at hk
          rw [hk]
          exact ih hnd.2 h1

theorem has_node_false_eq (st : BuildState) (name : String) :
    has_node st name false = (st.cache.lookup name).isSome := by
  unfold has_node
  cases st.cache.lookup name <;> simp

/-- Case analysis of `get_node`: either the name is cached and the state is
untouched, or a fresh node is allocated and registered. -/
theorem get_node_cases (st : BuildState) (name : String) :
    (has_node st name false = true ∧
      get_node st name = ((st.cache.lookup name).getD 0, st)) ∨
    (has_node st name false = false ∧
      get_node st name =
        (st.heap.length,
          { heap := st.heap ++ [newNode (some name) none],
            cache := (name, st.heap.length) :: st.cache,
            all_nodes := st.all_nodes ++ [st.heap.length] })) := by
  by_cases h : has_node st name false
  · exact Or.inl ⟨h, by unfold get_node; rw [if_pos h]⟩
  · exact Or.inr ⟨by simpa using h, by unfold get_node; rw [if_neg h]⟩

/-- Case analysis of `add_node_dep`: a cached dependency only pushes an
edge; a new dependency allocates, registers and enqueues the node. -/
theorem add_node_dep_cases (st : BuildState) (q : List Nat) (target : Nat) (d : String) :
    (has_node st d false = true ∧
      add_node_dep st q target d =
        ({ st with heap := push_dependency st.heap target ((st.cache.lookup d).getD 0) }, q)) ∨
    (has_node st d false = false ∧
      add_node_dep st q target d =
        ({ heap := push_dependency (st.heap ++ [newNode (some d) none]) target st.heap.length,
           cache := (d, st.heap.length) :: st.cache,
           all_nodes := st.all_nodes ++ [st.heap.length] }, q ++ [st.heap.length])) := by
  rcases get_node_cases st d with ⟨h, hg⟩ | ⟨h, hg⟩
  · left
    refine ⟨h, ?_⟩
    unfold add_node_dep
    rw [hg, if_pos h]
  · right
    refine ⟨h, ?_⟩
    unfold add_node_dep
    rw [hg]
    rw [if_neg (by rw [h]; exact Bool.false_ne_true)]

/-! ### Frame lemmas for the loop body -/

theorem heapGet_updNode (heap : List DepNode) (i : Nat) (f : DepNode → DepNode) (j : Nat) :
    heapGet (updNode heap i f) j =
      if j = i ∧ i < heap.length then f (heapGet heap j) else heapGet heap j := by
  by_cases hj : j = i
  · subst hj
    by_cases hi : j < heap.length
    · rw [heapGet_updNode_self _ _ _ hi, if_pos ⟨rfl, hi⟩]
    · rw [updNode_of_ge _ _ _ (le_of_not_lt hi), if_neg (fun h => hi h.2)]
  · rw [heapGet_updNode_ne _ _ _ _ hj, if_neg (fun h => hj h.1)]

theorem upd_StepOK (st : BuildState) (i : Nat) (f : DepNode → DepNode)
    (hm : ∀ n, (f n).module = n.module)
    (hl : ∀ n, n.loaded = true → (f n).loaded = true)
    (hv : ∀ n, (f n).visited = n.visited)
    (hf : ∀ n, truthy n.file_name = true → truthy (f n).file_name = true) :
    StepOK st { st with heap := updNode st.heap i f } := by
  have hlen : (updNode st.heap i f).length = st.heap.length := updNode_length _ _ _
  refine ⟨le_of_eq hlen.symm, ?_, ?_, ?_, ?_, ?_, ⟨[], rfl⟩⟩
  · intro j hj
    rw [heapGet_updNode]
    by_cases hc : j = i ∧ i < st.heap.length
    · rw [if_pos hc, hm]
    · rw [if_neg hc]
  · intro j hj1 hj2
    simp only [hlen] at hj2
    omega
  · intro j hj
    rw [heapGet_updNode]
    by_cases hc : j = i ∧ i < st.heap.length
    · rw [if_pos hc]
      exact hl _ hj
    · rw [if_neg hc]
      exact hj
  · intro j
    rw [heapGet_updNode]
    by_cases hc : j = i ∧ i < st.heap.length
    · rw [if_pos hc, hv]
    · rw [if_neg hc]
  · intro j hj
    rw [heapGet_updNode]
    by_cases hc : j = i ∧ i < st.heap.length
    · rw [if_pos hc]
      exact hf _ hj
    · rw [if_neg hc]
      exact hj

theorem push_StepOK (st : BuildState) (a b : Nat) :
    StepOK st { st with heap := push_dependency st.heap a b } := by
  have h1 := upd_StepOK st a
    (fun n => { n with dependencies := n.dependencies ++ [b] })
    (fun n => rfl) (fun n h => h) (fun n => rfl) (fun n h => h)
  exact StepOK_trans h1 (upd_StepOK _ b
    (fun n => { n with dependents := n.dependents ++ [a] })
    (fun n => rfl) (fun n h => h) (fun n => rfl) (fun n h => h))

theorem add_node_dep_fst (st : BuildState) (q : List Nat) (target : Nat) (d : String) :
    (add_node_dep st q target d).1 =
      { (get_node st d).2 with
        heap := push_dependency (get_node st d).2.heap target (get_node st d).1 } := by
  unfold add_node_dep
  by_cases h : has_node st d false = true
  · rw [if_pos h]
  · rw [if_neg h]

theorem add_node_dep_StepOK (st : BuildState) (q : List Nat) (target : Nat) (d : String) :
    StepOK st (add_node_dep st q target d).1 := by
  rw [add_node_dep_fst]
  exact StepOK_trans (get_node_StepOK st d) (push_StepOK _ _ _)

theorem dep_loop_cons (target : Nat) (d : String) (ds : List String)
    (st : BuildState) (q : List Nat) :
    dep_loop target (d :: ds) st q =
      dep_loop target ds (add_node_dep st q target d).1 (add_node_dep st q target d).2 := rfl

theorem dep_loop_StepOK (target : Nat) (ds : List String) :
    ∀ (st : BuildState) (q : List Nat), StepOK st (dep_loop target ds st q).1 := by
  induction ds with
  | nil => intro st q; exact StepOK_refl st
  | cons d ds ih =>
      intro st q
      rw [dep_loop_cons]
      exact StepOK_trans (add_node_dep_StepOK st q target d) (ih _ _)

theorem basename_empty : basename "" = "" := rfl

theorem derivedFileName_data (m : String) :
    (derivedFileName m).data =
      (splitOnChar '.' m.data).getLastD [] ++ ('.' :: 'j' :: 's' :: []) := rfl

theorem derivedFileName_ne_empty (m : String) : derivedFileName m ≠ "" := by
  intro h
  have h2 := congrArg String.data h
  rw [derivedFileName_data] at h2
  simp at h2

theorem guess_file_basename {m f : String} {sources : List String}
    (h : guess_file m sources = some f) : basename f = derivedFileName m := by
  induction sources with
  | nil => cases h
  | cons s rest ih =>
      rw [guess_file] at h
      by_cases hs : (basename s == derivedFileName m) = true
      · rw [if_pos hs] at h
        have h2 : s = f := Option.some.inj h
        rw [← h2]
        simpa using hs
      · rw [if_neg hs] at h
        exact ih h

theorem resolveFname_ok_ne {sources : List String} {node : DepNode} {fname : String}
    (h : resolveFname sources node = .ok (some fname)) : fname ≠ "" := by
  unfold resolveFname at h
  by_cases ht : truthy node.file_name = true
  · rw [if_pos ht] at h
    have h2 : node.file_name = some fname := Except.ok.inj h
    rw [h2] at ht
    simpa [truthy] using ht
  · rw [if_neg ht] at h
    cases hm : node.module with
    | none => rw [hm] at h; cases h
    | some m =>
        rw [hm] at h
        have h2 : guess_file m sources = some fname := Except.ok.inj h
        intro he
        subst he
        exact derivedFileName_ne_empty m
          (basename_empty ▸ (guess_file_basename h2).symm)

theorem moduleStep_StepOK (st : BuildState) (fname name body : String) (hne : fname ≠ "") :
    StepOK st (moduleStep st fname name body) := by
  unfold moduleStep
  refine StepOK_trans (get_node_StepOK st name) ?_
  exact upd_StepOK _ _ _ (fun n => rfl) (fun n h => rfl) (fun n => rfl)
    (fun n h => by simp [truthy, hne])

theorem includeStep_StepOK (st : BuildState) (fname : String) (hne : fname ≠ "") :
    StepOK st (includeStep st fname) := by
  unfold includeStep
  refine StepOK_trans (get_node_StepOK st fname) ?_
  exact upd_StepOK _ _ _ (fun n => rfl) (fun n h => h) (fun n => rfl)
    (fun n h => by simp [truthy, hne])

/-- Complete case analysis of one worklist iteration of `DepGraph.build`. -/
theorem processNode_cases (fs : FileSystem) (sources : List String) (st : BuildState)
    (nidx : Nat) (queue : List Nat) :
    (skipLoaded st (heapGet st.heap nidx) = true ∧
      processNode fs sources st nidx queue = .ok (st, queue)) ∨
    (skipLoaded st (heapGet st.heap nidx) = false ∧
      resolveFname sources (heapGet st.heap nidx) = .error .pyCrash ∧
      processNode fs sources st nidx queue = .error .pyCrash) ∨
    (skipLoaded st (heapGet st.heap nidx) = false ∧
      resolveFname sources (heapGet st.heap nidx) = .ok none ∧
      processNode fs sources st nidx queue =
        .error (.buildException (missingMsg (heapGet st.heap nidx)))) ∨
    (∃ fname, skipLoaded st (heapGet st.heap nidx) = false ∧
      resolveFname sources (heapGet st.heap nidx) = .ok (some fname) ∧
      fs.lookup fname = none ∧
      processNode fs sources st nidx queue =
        .error (.buildException (missingMsg (heapGet st.heap nidx)))) ∨
    (∃ fname name deps body, skipLoaded st (heapGet st.heap nidx) = false ∧
      resolveFname sources (heapGet st.heap nidx) = .ok (some fname) ∧
      fs.lookup fname = some (.moduleDecl name deps body) ∧
      processNode fs sources st nidx queue =
        .ok (dep_loop (get_node st name).1 deps (moduleStep st fname name body) queue)) ∨
    (∃ fname deps, skipLoaded st (heapGet st.heap nidx) = false ∧
      resolveFname sources (heapGet st.heap nidx) = .ok (some fname) ∧
      fs.lookup fname = some (.includeDecl deps) ∧ 0 < deps.length ∧
      processNode fs sources st nidx queue =
        .ok (dep_loop nidx deps (includeStep st fname) queue)) ∨
    (∃ fname deps, skipLoaded st (heapGet st.heap nidx) = false ∧
      resolveFname sources (heapGet st.heap nidx) = .ok (some fname) ∧
      fs.lookup fname = some (.includeDecl deps) ∧ deps.length = 0 ∧
      processNode fs sources st nidx queue = .ok (st, queue)) ∨
    (∃ fname, skipLoaded st (heapGet st.heap nidx) = false ∧
      resolveFname sources (heapGet st.heap nidx) = .ok (some fname) ∧
      fs.lookup fname = some .plain ∧
      processNode fs sources st nidx queue = .ok (st, queue)) := by
  by_cases hskip : skipLoaded st (heapGet st.heap nidx) = true
  · exact Or.inl ⟨hskip, by simp [processNode, hskip]⟩
  · have hskip2 : skipLoaded st (heapGet st.heap nidx) = false := by simpa using hskip
    cases hres : resolveFname sources (heapGet st.heap nidx) with
    | error e =>
        have he : e = .pyCrash := by
          unfold resolveFname at hres
          by_cases ht : truthy (heapGet st.heap nidx).file_name = true
          · rw [if_pos ht] at hres
            cases hres
          · rw [if_neg ht] at hres
            cases hm : (heapGet st.heap nidx).module with
            | none =>
                rw [hm] at hres
                exact (Except.error.inj hres).symm
            | some m =>
                rw [hm] at hres
                cases hres
        subst he
        exact Or.inr (Or.inl ⟨hskip2, rfl, by simp [processNode, hskip2, hres]⟩)
    | ok fo =>
        cases fo with
        | none =>
            exact Or.inr (Or.inr (Or.inl ⟨hskip2, rfl,
              by simp [processNode, hskip2, hres]⟩))
        | some fname =>
            cases hlook : fs.lookup fname with
            | none =>
                exact Or.inr (Or.inr (Or.inr (Or.inl ⟨fname, hskip2, rfl, hlook,
                  by simp [processNode, hskip2, hres, hlook]⟩)))
            | some fd =>
                cases fd with
                | moduleDecl name deps body =>
                    refine Or.inr (Or.inr (Or.inr (Or.inr (Or.inl
                      ⟨fname, name, deps, body, hskip2, rfl, hlook, ?_⟩))))
                    simp [processNode, hskip2, hres, hlook]
                | includeDecl deps =>
                    by_cases hd : 0 < deps.length
                    · refine Or.inr (Or.inr (Or.inr (Or.inr (Or.inr (Or.inl
                        ⟨fname, deps, hskip2, rfl, hlook, hd, ?_⟩)))))
                      simp [processNode, hskip2, hres, hlook, hd]
                    · have hd0 : deps.length = 0 := by omega
                      refine Or.inr (Or.inr (Or.inr (Or.inr (Or.inr (Or.inr (Or.inl
                        ⟨fname, deps, hskip2, rfl, hlook, hd0, ?_⟩))))))
                      simp [processNode, hskip2, hres, hlook, hd0]
                | plain =>
                    refine Or.inr (Or.inr (Or.inr (Or.inr (Or.inr (Or.inr (Or.inr
                      ⟨fname, hskip2, rfl, hlook, ?_⟩))))))
                    simp [processNode, hskip2, hres, hlook]

theorem processNode_StepOK {fs : FileSystem} {sources : List String} {st : BuildState}
    {nidx : Nat} {queue : List Nat} {st2 : BuildState} {q2 : List Nat}
    (h : processNode fs sources st nidx queue = .ok (st2, q2)) : StepOK st st2 := by
  rcases processNode_cases fs sources st nidx queue with
    ⟨hs, he⟩ | ⟨hs, hr, he⟩ | ⟨hs, hr, he⟩ | ⟨fname, hs, hr, hl, he⟩ |
    ⟨fname, name, deps, body, hs, hr, hl, he⟩ | ⟨fname, deps, hs, hr, hl, hd, he⟩ |
    ⟨fname, deps, hs, hr, hl, hd, he⟩ | ⟨fname, hs, hr, hl, he⟩
  · have h2 := Except.ok.inj (he.symm.trans h)
    have hst : st = st2 := congrArg Prod.fst h2
    exact hst ▸ StepOK_refl st
  · rw [he] at h
    cases h
  · rw [he] at h
    cases h
  · rw [he] at h
    cases h
  · have h2 := Except.ok.inj (he.symm.trans h)
    have hst : (dep_loop (get_node st name).1 deps (moduleStep st fname name body) queue).1
        = st2 := congrArg Prod.fst h2
    rw [← hst]
    exact StepOK_trans (moduleStep_StepOK st fname name body (resolveFname_ok_ne hr))
      (dep_loop_StepOK _ deps _ queue)
  · have h2 := Except.ok.inj (he.symm.trans h)
    have hst : (dep_loop nidx deps (includeStep st fname) queue).1 = st2 :=
      congrArg Prod.fst h2
    rw [← hst]
    exact StepOK_trans (includeStep_StepOK st fname (resolveFname_ok_ne hr))
      (dep_loop_StepOK _ deps _ queue)
  · have h2 := Except.ok.inj (he.symm.trans h)
    have hst : st = st2 := congrArg Prod.fst h2
    exact hst ▸ StepOK_refl st
  · have h2 := Except.ok.inj (he.symm.trans h)
    have hst : st = st2 := congrArg Prod.fst h2
    exact hst ▸ StepOK_refl st

theorem LoopReach_StepOK {fs : FileSystem} {sources : List String}
    {st : BuildState} {q : List Nat} {st2 : BuildState} {q2 : List Nat}
    (h : LoopReach fs sources st q st2 q2) : StepOK st st2 := by
  induction h with
  | refl st q => exact StepOK_refl st
  | step hp htail ih => exact StepOK_trans (processNode_StepOK hp) ih

/-- Claim C9: along every sequence of worklist iterations within one build,
a node's `loaded` flag never goes from `true` back to `false`: once a node
is loaded in a reachable state, it is loaded in every later state (and
since nodes are created with `loaded=false` and boolean, the transition
`false` to `true` happens at most once). -/
theorem C9_loaded_is_monotone {fs : FileSystem} {sources : List String}
    {st : BuildState} {q : List Nat} {st2 : BuildState} {q2 : List Nat}
    (h : LoopReach fs sources st q st2 q2) :
    ∀ i, (heapGet st.heap i).loaded = true → (heapGet st2.heap i).loaded = true :=
  (LoopReach_StepOK h).hload

/-- Extract the successful configuration of one worklist iteration. -/
def okPair (r : Except BErr (BuildState × List Nat)) : BuildState × List Nat :=
  match r with
  | .ok p => p
  | .error _ => (initState [], [])

/-- The configuration after processing the input node of the `fsTwoMods`
build (module `a.b.Foo` is now loaded and `a.b.Bar` is enqueued). -/
def c9Mid : BuildState × List Nat :=
  okPair (processNode fsTwoMods ["Bar.js"] (initState ["foo.js"]) 0 [])

/-- The configuration after additionally processing the `a.b.Bar` node. -/
def c9End : BuildState × List Nat :=
  okPair (processNode fsTwoMods ["Bar.js"] c9Mid.1 2 [])

/-- Witness for C9: node 1 (`a.b.Foo`) is loaded midway through the
concrete build and stays loaded one reachable step later. -/
theorem C9_loaded_is_monotone_witness : (heapGet c9End.1.heap 1).loaded = true :=
  C9_loaded_is_monotone
    (LoopReach.step (rfl : processNode fsTwoMods ["Bar.js"] c9Mid.1 2 [] = .ok (c9End.1, c9End.2))
      (LoopReach.refl c9End.1 c9End.2)) 1 rfl

/-! ### The registry and edge invariant of the worklist loop -/

theorem heapGet_append_cases (heap : List DepNode) (x : DepNode) (i : Nat) :
    heapGet (heap ++ [x]) i =
      if i < heap.length then heapGet heap i
      else if i = heap.length then x else default := by
  by_cases h1 : i < heap.length
  · rw [if_pos h1, heapGet_append_lt _ _ _ h1]
  · rw [if_neg h1]
    by_cases h2 : i = heap.length
    · subst h2
      rw [if_pos rfl, heapGet_append_self]
    · rw [if_neg h2, heapGet_out _ _ (by simp; omega)]

/-- All queue indices point inside the heap. -/
def QBound (st : BuildState) (q : List Nat) : Prop := ∀ n ∈ q, n < st.heap.length

/-- The registry, edge and flag invariant maintained by `DepGraph.build`:
cache keys are unique, cache entries point at in-range nodes carrying the
key as module name, `all_nodes` mirrors the registration order, edges
point inside the heap, edges are symmetric, every dependency target is a
registered node, and no visited flag is set. -/
structure StInv (st : BuildState) : Prop where
  keysNodup : (st.cache.map Prod.fst).Nodup
  cacheBound : ∀ p ∈ st.cache, p.2 < st.heap.length
  cacheModule : ∀ p ∈ st.cache, (heapGet st.heap p.2).module = some p.1
  allNodesEq : st.all_nodes = (st.cache.map Prod.snd).reverse
  depsBound : ∀ i, ∀ d ∈ depsAt st.heap i, d < st.heap.length
  depntsBound : ∀ i, ∀ d ∈ depntsAt st.heap i, d < st.heap.length
  symm : EdgeSymm st.heap
  depsReg : ∀ i, ∀ d ∈ depsAt st.heap i, d ∈ st.all_nodes
  visFalse : ∀ i, (heapGet st.heap i).visited = false

theorem initHeap_heapGet (inputs : List String) (i : Nat) :
    heapGet (initHeap inputs) i = default ∨
    ∃ f, heapGet (initHeap inputs) i = newNode none (some f) := by
  unfold initHeap heapGet
  by_cases h : i < inputs.length
  · right
    refine ⟨inputs[i], ?_⟩
    rw [List.getD_eq_getElem _ _ (by simpa using h)]
    simp
  · left
    rw [List.getD_eq_default]
    simpa using le_of_not_lt h

theorem initState_StInv (inputs : List String) : StInv (initState inputs) := by
  have hget : ∀ i, (heapGet (initState inputs).heap i).dependencies = [] ∧
      (heapGet (initState inputs).heap i).dependents = [] ∧
      (heapGet (initState inputs).heap i).visited = false := by
    intro i
    have he : (initState inputs).heap = initHeap inputs := rfl
    rw [he]
    rcases initHeap_heapGet inputs i with h | ⟨f, h⟩ <;> rw [h] <;> exact ⟨rfl, rfl, rfl⟩
  have hdeps : ∀ i, depsAt (initState inputs).heap i = [] := fun i => (hget i).1
  have hdepnts : ∀ i, depntsAt (initState inputs).heap i = [] := fun i => (hget i).2.1
  refine ⟨by simp [initState], ?_, ?_, by simp [initState], ?_, ?_, ?_, ?_, ?_⟩
  · intro p hp
    simp [initState] at hp
  · intro p hp
    simp [initState] at hp
  · intro i d hd
    rw [hdeps i] at hd
    cases hd
  · intro i d hd
    rw [hdepnts i] at hd
    cases hd
  · intro a b
    unfold EdgeSymm at *
    rw [hdeps a, hdepnts b]
    simp
  · intro i d hd
    rw [hdeps i] at hd
    cases hd
  · intro i
    exact (hget i).2.2

theorem depsAt_append_new (heap : List DepNode) (x : DepNode) (hx : x.dependencies = [])
    (i : Nat) :
    depsAt (heap ++ [x]) i = if i < heap.length then depsAt heap i else [] := by
  unfold depsAt
  rw [heapGet_append_cases]
  by_cases h1 : i < heap.length
  · rw [if_pos h1, if_pos h1]
  · rw [if_neg h1, if_neg h1]
    by_cases h2 : i = heap.length
    · rw [if_pos h2, hx]
    · rw [if_neg h2]
      rfl

theorem depntsAt_append_new (heap : List DepNode) (x : DepNode) (hx : x.dependents = [])
    (i : Nat) :
    depntsAt (heap ++ [x]) i = if i < heap.length then depntsAt heap i else [] := by
  unfold depntsAt
  rw [heapGet_append_cases]
  by_cases h1 : i < heap.length
  · rw [if_pos h1, if_pos h1]
  · rw [if_neg h1, if_neg h1]
    by_cases h2 : i = heap.length
    · rw [if_pos h2, hx]
    · rw [if_neg h2]
      rfl

theorem get_node_StInv {st : BuildState} (hin : StInv st) (name : String) :
    StInv (get_node st name).2 ∧
    (get_node st name).1 < (get_node st name).2.heap.length ∧
    (heapGet (get_node st name).2.heap (get_node st name).1).module = some name ∧
    (get_node st name).1 ∈ (get_node st name).2.all_nodes := by
  rcases get_node_cases st name with ⟨h, hg⟩ | ⟨h, hg⟩
  · rw [hg]
    rw [has_node_false_eq] at h
    cases hl : st.cache.lookup name with
    | none => rw [hl] at h; cases h
    | some i =>
        have hmem := lookup_mem hl
        refine ⟨hin, hin.cacheBound _ hmem, hin.cacheModule _ hmem, ?_⟩
        show i ∈ st.all_nodes
        rw [hin.allNodesEq, List.mem_reverse]
        exact List.mem_map_of_mem Prod.snd hmem
  · rw [hg]
    have hnames : name ∉ st.cache.map Prod.fst := by
      rw [has_node_false_eq] at h
      cases hl : st.cache.lookup name with
      | none => exact not_mem_keys_of_lookup_eq_none hl
      | some i => rw [hl] at h; cases h
    have hdeps : ∀ i, depsAt (st.heap ++ [newNode (some name) none]) i =
        if i < st.heap.length then depsAt st.heap i else [] :=
      depsAt_append_new st.heap _ rfl
    have hdepnts : ∀ i, depntsAt (st.heap ++ [newNode (some name) none]) i =
        if i < st.heap.length then depntsAt st.heap i else [] :=
      depntsAt_append_new st.heap _ rfl
    refine ⟨⟨?_, ?_, ?_, ?_, ?_, ?_, ?_, ?_, ?_⟩, by simp, ?_, by simp⟩
    · simp only [List.map_cons, List.nodup_cons]
      exact ⟨hnames, hin.keysNodup⟩
    · intro p hp
      rcases List.mem_cons.mp hp with h1 | h1
      · rw [h1]
        simp
      · have := hin.cacheBound p h1
        simp
        omega
    · intro p hp
      rcases List.mem_cons.mp hp with h1 | h1
      · rw [h1]
        rw [heapGet_append_self]
        rfl
      · rw [heapGet_append_lt _ _ _ (hin.cacheBound p h1)]
        exact hin.cacheModule p h1
    · rw [hin.allNodesEq]
      simp
    · intro i d hd
      rw [hdeps i] at hd
      by_cases h1 : i < st.heap.length
      · rw [if_pos h1] at hd
        have := hin.depsBound i d hd
        simp
        omega
      · rw [if_neg h1] at hd
        cases hd
    · intro i d hd
      rw [hdepnts i] at hd
      by_cases h1 : i < st.heap.length
      · rw [if_pos h1] at hd
        have := hin.depntsBound i d hd
        simp
        omega
      · rw [if_neg h1] at hd
        cases hd
    · intro a b
      show b ∈ depsAt (st.heap ++ [newNode (some name) none]) a ↔
        a ∈ depntsAt (st.heap ++ [newNode (some name) none]) b
      rw [hdeps a, hdepnts b]
      by_cases ha : a < st.heap.length
      · by_cases hb : b < st.heap.length
        · rw [if_pos ha, if_pos hb]
          exact hin.symm a b
        · rw [if_pos ha, if_neg hb]
          constructor
          · intro hmem
            exact absurd (hin.depsBound a b hmem) hb
          · intro hmem
            cases hmem
      · by_cases hb : b < st.heap.length
        · rw [if_neg ha, if_pos hb]
          constructor
          · intro hmem
            cases hmem
          · intro hmem
            exact absurd (hin.depntsBound b a hmem) ha
        · rw [if_neg ha, if_neg hb]
          simp
    · intro i d hd
      rw [hdeps i] at hd
      by_cases h1 : i < st.heap.length
      · rw [if_pos h1] at hd
        exact List.mem_append_left _ (hin.depsReg i d hd)
      · rw [if_neg h1] at hd
        cases hd
    · intro i
      rw [heapGet_append_cases]
      by_cases h1 : i < st.heap.length
      · rw [if_pos h1]
        exact hin.visFalse i
      · rw [if_neg h1]
        by_cases h2 : i = st.heap.length
        · rw [if_pos h2]
          rfl
        · rw [if_neg h2]
          rfl
    · show (heapGet (st.heap ++ [newNode (some name) none]) st.heap.length).module = some name
      rw [heapGet_append_self]
      rfl

theorem upd_StInv {st : BuildState} (hin : StInv st) (i : Nat) (f : DepNode → DepNode)
    (hm : ∀ n, (f n).module = n.module)
    (hd : ∀ n, (f n).dependencies = n.dependencies)
    (hd2 : ∀ n, (f n).dependents = n.dependents)
    (hv : ∀ n, (f n).visited = n.visited) :
    StInv { st with heap := updNode st.heap i f } := by
  have hlen : (updNode st.heap i f).length = st.heap.length := updNode_length _ _ _
  have hdeps : ∀ j, depsAt (updNode st.heap i f) j = depsAt st.heap j := by
    intro j
    unfold depsAt
    rw [heapGet_updNode]
    by_cases hc : j = i ∧ i < st.heap.length
    · rw [if_pos hc, hd]
    · rw [if_neg hc]
  have hdepnts : ∀ j, depntsAt (updNode st.heap i f) j = depntsAt st.heap j := by
    intro j
    unfold depntsAt
    rw [heapGet_updNode]
    by_cases hc : j = i ∧ i < st.heap.length
    · rw [if_pos hc, hd2]
    · rw [if_neg hc]
  refine ⟨hin.keysNodup, ?_, ?_, hin.allNodesEq, ?_, ?_, ?_, ?_, ?_⟩
  · intro p hp
    rw [hlen]
    exact hin.cacheBound p hp
  · intro p hp
    rw [heapGet_updNode]
    by_cases hc : p.2 = i ∧ i < st.heap.length
    · rw [if_pos hc, hm]
      exact hin.cacheModule p hp
    · rw [if_neg hc]
      exact hin.cacheModule p hp
  · intro j d hdm
    rw [hdeps j] at hdm
    rw [hlen]
    exact hin.depsBound j d hdm
  · intro j d hdm
    rw [hdepnts j] at hdm
    rw [hlen]
    exact hin.depntsBound j d hdm
  · intro a b
    show b ∈ depsAt (updNode st.heap i f) a ↔ a ∈ depntsAt (updNode st.heap i f) b
    rw [hdeps a, hdepnts b]
    exact hin.symm a b
  · intro j d hdm
    rw [hdeps j] at hdm
    exact hin.depsReg j d hdm
  · intro j
    rw [heapGet_updNode]
    by_cases hc : j = i ∧ i < st.heap.length
    · rw [if_pos hc, hv]
      exact hin.visFalse j
    · rw [if_neg hc]
      exact hin.visFalse j

theorem push_StInv {st : BuildState} (hin : StInv st) {target dep : Nat}
    (ht : target < st.heap.length) (hdl : dep < st.heap.length)
    (hreg : dep ∈ st.all_nodes) :
    StInv { st with heap := push_dependency st.heap target dep } := by
  have hlen : (push_dependency st.heap target dep).length = st.heap.length :=
    push_dependency_length _ _ _
  have hnode : ∀ x, heapGet (push_dependency st.heap target dep) x =
      { heapGet st.heap x with
        dependencies := (heapGet st.heap x).dependencies ++ (if x = target then [dep] else []),
        dependents := (heapGet st.heap x).dependents ++ (if x = dep then [target] else []) } :=
    heapGet_push_dependency st.heap target dep ht hdl
  have hdeps : ∀ x, depsAt (push_dependency st.heap target dep) x =
      depsAt st.heap x ++ (if x = target then [dep] else []) := by
    intro x
    unfold depsAt
    rw [hnode x]
  have hdepnts : ∀ x, depntsAt (push_dependency st.heap target dep) x =
      depntsAt st.heap x ++ (if x = dep then [target] else []) := by
    intro x
    unfold depntsAt
    rw [hnode x]
  refine ⟨hin.keysNodup, ?_, ?_, hin.allNodesEq, ?_, ?_, ?_, ?_, ?_⟩
  · intro p hp
    rw [hlen]
    exact hin.cacheBound p hp
  · intro p hp
    rw [hnode p.2]
    exact hin.cacheModule p hp
  · intro j d hdm
    rw [hdeps j] at hdm
    rw [hlen]
    rcases List.mem_append.mp hdm with h1 | h1
    · exact hin.depsBound j d h1
    · by_cases hc : j = target
      · rw [if_pos hc] at h1
        rw [List.mem_singleton.mp h1]
        exact hdl
      · rw [if_neg hc] at h1
        cases h1
  · intro j d hdm
    rw [hdepnts j] at hdm
    rw [hlen]
    rcases List.mem_append.mp hdm with h1 | h1
    · exact hin.depntsBound j d h1
    · by_cases hc : j = dep
      · rw [if_pos hc] at h1
        rw [List.mem_singleton.mp h1]
        exact ht
      · rw [if_neg hc] at h1
        cases h1
  · exact push_dependency_EdgeSymm ht hdl hin.symm
  · intro j d hdm
    rw [hdeps j] at hdm
    rcases List.mem_append.mp hdm with h1 | h1
    · exact hin.depsReg j d h1
    · by_cases hc : j = target
      · rw [if_pos hc] at h1
        rw [List.mem_singleton.mp h1]
        exact hreg
      · rw [if_neg hc] at h1
        cases h1
  · intro j
    rw [hnode j]
    exact hin.visFalse j

theorem add_node_dep_snd (st : BuildState) (q : List Nat) (target : Nat) (d : String) :
    (add_node_dep st q target d).2 =
      if has_node st d false then q else q ++ [(get_node st d).1] := by
  unfold add_node_dep
  by_cases h : has_node st d false = true
  · simp [h]
  · simp [h]

theorem add_node_dep_StInv {st : BuildState} (hin : StInv st) (q : List Nat)
    {target : Nat} (ht : target < st.heap.length) (d : String) :
    StInv (add_node_dep st q target d).1 ∧
    st.heap.length ≤ (add_node_dep st q target d).1.heap.length ∧
    ∀ n ∈ (add_node_dep st q target d).2,
      n ∈ q ∨ n < (add_node_dep st q target d).1.heap.length := by
  obtain ⟨hin2, hlt, hmods, hreg⟩ := get_node_StInv hin d
  have hlen2 : st.heap.length ≤ (get_node st d).2.heap.length := (get_node_StepOK st d).hlen
  have hfst := add_node_dep_fst st q target d
  have hpush := push_StInv hin2 (lt_of_lt_of_le ht hlen2) hlt hreg
  have hlenp : (add_node_dep st q target d).1.heap.length = (get_node st d).2.heap.length := by
    rw [hfst]
    exact push_dependency_length _ _ _
  refine ⟨by rw [hfst]; exact hpush, by rw [hlenp]; exact hlen2, ?_⟩
  intro n hn
  rw [add_node_dep_snd] at hn
  by_cases h : has_node st d false = true
  · rw [if_pos h] at hn
    exact Or.inl hn
  · rw [if_neg h] at hn
    rcases List.mem_append.mp hn with h1 | h1
    · exact Or.inl h1
    · right
      rw [List.mem_singleton.mp h1, hlenp]
      exact hlt

theorem dep_loop_StInv {target : Nat} (ds : List String) :
    ∀ (st : BuildState) (q : List Nat), StInv st → target < st.heap.length →
      StInv (dep_loop target ds st q).1 ∧
      st.heap.length ≤ (dep_loop target ds st q).1.heap.length ∧
      ∀ n ∈ (dep_loop target ds st q).2,
        n ∈ q ∨ n < (dep_loop target ds st q).1.heap.length := by
  induction ds with
  | nil =>
      intro st q hin ht
      exact ⟨hin, le_refl _, fun n hn => Or.inl hn⟩
  | cons d ds ih =>
      intro st q hin ht
      rw [dep_loop_cons]
      obtain ⟨hin1, hle1, hq1⟩ := add_node_dep_StInv hin q ht d
      obtain ⟨hin2, hle2, hq2⟩ :=
        ih (add_node_dep st q target d).1 (add_node_dep st q target d).2 hin1
          (lt_of_lt_of_le ht hle1)
      refine ⟨hin2, hle1.trans hle2, ?_⟩
      intro n hn
      rcases hq2 n hn with h1 | h1
      · rcases hq1 n h1 with h2 | h2
        · exact Or.inl h2
        · exact Or.inr (lt_of_lt_of_le h2 hle2)
      · exact Or.inr h1

theorem moduleStep_StInv2 {st : BuildState} (hin : StInv st) (fname name body : String) :
    StInv (moduleStep st fname name body) ∧
    st.heap.length ≤ (moduleStep st fname name body).heap.length ∧
    (get_node st name).1 < (moduleStep st fname name body).heap.length := by
  obtain ⟨hin2, hlt, hmods, hreg⟩ := get_node_StInv hin name
  have hlen2 : st.heap.length ≤ (get_node st name).2.heap.length :=
    (get_node_StepOK st name).hlen
  have hupd := upd_StInv hin2 (get_node st name).1
    (fun n => { n with file_name := some fname, content := body, loaded := true })
    (fun n => rfl) (fun n => rfl) (fun n => rfl) (fun n => rfl)
  have hlenu : (moduleStep st fname name body).heap.length =
      (get_node st name).2.heap.length := by
    unfold moduleStep
    exact updNode_length _ _ _
  exact ⟨hupd, by rw [hlenu]; exact hlen2, by rw [hlenu]; exact hlt⟩

theorem includeStep_StInv2 {st : BuildState} (hin : StInv st) (fname : String) :
    StInv (includeStep st fname) ∧
    st.heap.length ≤ (includeStep st fname).heap.length := by
  obtain ⟨hin2, hlt, hmods, hreg⟩ := get_node_StInv hin fname
  have hlen2 : st.heap.length ≤ (get_node st fname).2.heap.length :=
    (get_node_StepOK st fname).hlen
  have hupd := upd_StInv hin2 (get_node st fname).1
    (fun n => { n with file_name := some fname, is_module := false })
    (fun n => rfl) (fun n => rfl) (fun n => rfl) (fun n => rfl)
  have hlenu : (includeStep st fname).heap.length =
      (get_node st fname).2.heap.length := by
    unfold includeStep
    exact updNode_length _ _ _
  exact ⟨hupd, by rw [hlenu]; exact hlen2⟩

theorem processNode_StInv {fs : FileSystem} {sources : List String} {st : BuildState}
    {nidx : Nat} {queue : List Nat} {st2 : BuildState} {q2 : List Nat}
    (hin : StInv st) (hq : QBound st (nidx :: queue))
    (h : processNode fs sources st nidx queue = .ok (st2, q2)) :
    StInv st2 ∧ QBound st2 q2 := by
  have hqt : QBound st queue := fun n hn => hq n (List.mem_cons_of_mem _ hn)
  have hnidx : nidx < st.heap.length := hq nidx (List.mem_cons_self _ _)
  rcases processNode_cases fs sources st nidx queue with
    ⟨hs, he⟩ | ⟨hs, hr, he⟩ | ⟨hs, hr, he⟩ | ⟨fname, hs, hr, hl, he⟩ |
    ⟨fname, name, deps, body, hs, hr, hl, he⟩ | ⟨fname, deps, hs, hr, hl, hd, he⟩ |
    ⟨fname, deps, hs, hr, hl, hd, he⟩ | ⟨fname, hs, hr, hl, he⟩
  · have h2 := Except.ok.inj (he.symm.trans h)
    have hst : st = st2 := congrArg Prod.fst h2
    have hqe : queue = q2 := congrArg Prod.snd h2
    exact hst ▸ hqe ▸ ⟨hin, hqt⟩
  · rw [he] at h
    cases h
  · rw [he] at h
    cases h
  · rw [he] at h
    cases h
  · have h2 := Except.ok.inj (he.symm.trans h)
    obtain ⟨hms, hle, hlt⟩ := moduleStep_StInv2 hin fname name body
    obtain ⟨hin3, hle3, hq3⟩ := dep_loop_StInv deps (moduleStep st fname name body) queue hms hlt
    have hst : (dep_loop (get_node st name).1 deps (moduleStep st fname name body) queue).1
        = st2 := congrArg Prod.fst h2
    have hqe : (dep_loop (get_node st name).1 deps (moduleStep st fname name body) queue).2
        = q2 := congrArg Prod.snd h2
    rw [← hst, ← hqe]
    refine ⟨hin3, ?_⟩
    intro n hn
    rcases hq3 n hn with h1 | h1
    · exact lt_of_lt_of_le (hqt n h1) (hle.trans hle3)
    · exact h1
  · have h2 := Except.ok.inj (he.symm.trans h)
    obtain ⟨his, hle⟩ := includeStep_StInv2 hin fname
    obtain ⟨hin3, hle3, hq3⟩ := dep_loop_StInv deps (includeStep st fname) queue his
      (lt_of_lt_of_le hnidx hle)
    have hst : (dep_loop nidx deps (includeStep st fname) queue).1 = st2 :=
      congrArg Prod.fst h2
    have hqe : (dep_loop nidx deps (includeStep st fname) queue).2 = q2 :=
      congrArg Prod.snd h2
    rw [← hst, ← hqe]
    refine ⟨hin3, ?_⟩
    intro n hn
    rcases hq3 n hn with h1 | h1
    · exact lt_of_lt_of_le (hqt n h1) (hle.trans hle3)
    · exact h1
  · have h2 := Except.ok.inj (he.symm.trans h)
    have hst : st = st2 := congrArg Prod.fst h2
    have hqe : queue = q2 := congrArg Prod.snd h2
    exact hst ▸ hqe ▸ ⟨hin, hqt⟩
  · have h2 := Except.ok.inj (he.symm.trans h)
    have hst : st = st2 := congrArg Prod.fst h2
    have hqe : queue = q2 := congrArg Prod.snd h2
    exact hst ▸ hqe ▸ ⟨hin, hqt⟩

theorem buildLoopF_StInv {fs : FileSystem} {sources : List String} :
    ∀ (fuel : Nat) (st : BuildState) (q : List Nat) (st2 : BuildState),
      StInv st → QBound st q →
      buildLoopF fs sources fuel st q = some (.ok st2) → StInv st2 := by
  intro fuel
  induction fuel with
  | zero =>
      intro st q st2 _ _ h
      cases h
  | succ fuel ih =>
      intro st q st2 hin hq h
      cases q with
      | nil =>
          rw [buildLoopF] at h
          have h2 := Option.some.inj h
          have h3 := Except.ok.inj h2
          exact h3 ▸ hin
      | cons n rest =>
          rw [buildLoopF] at h
          cases hp : processNode fs sources st n rest with
          | error e =>
              rw [hp] at h
              cases Option.some.inj h
          | ok p =>
              rw [hp] at h
              obtain ⟨hin2, hq2⟩ := processNode_StInv hin hq
                (show processNode fs sources st n rest = .ok (p.1, p.2) from hp)
              exact ih p.1 p.2 st2 hin2 hq2 h

theorem initQueue_QBound (inputs : List String) :
    QBound (initState inputs) (initQueue inputs) := by
  intro n hn
  have h2 : n < inputs.length := List.mem_range.mp hn
  show n < (initHeap inputs).length
  unfold initHeap
  simpa using h2

/-- The facts about a successfully built graph that the chain-evaluation
proofs rely on. -/
theorem build_ok_inv {inputs sources : List String} {fs : FileSystem} {g : DepGraph}
    (hb : build inputs sources fs = .ok g) :
    (∀ i ∈ g.all_nodes, i < g.heap.length) ∧
    (∀ i, ∀ d ∈ depsAt g.heap i, d < g.heap.length) ∧
    (∀ i, ∀ d ∈ depntsAt g.heap i, d < g.heap.length) ∧
    EdgeSymm g.heap ∧
    (∀ i, ∀ d ∈ depsAt g.heap i, d ∈ g.all_nodes) ∧
    (∀ i, (heapGet g.heap i).visited = false) ∧
    g.leaves = g.all_nodes.filter (fun i => (heapGet g.heap i).dependencies.isEmpty) ∧
    (g.all_nodes.map (fun i => (heapGet g.heap i).module)).Nodup ∧
    (∀ i ∈ g.all_nodes, ((heapGet g.heap i).module).isSome = true) := by
  unfold build at hb
  cases hloop : buildLoopF fs sources (buildFuel inputs fs) (initState inputs) (initQueue inputs) with
  | none => rw [hloop] at hb; cases hb
  | some r =>
      rw [hloop] at hb
      cases r with
      | error e => cases hb
      | ok st =>
          rw [Except.ok.injEq] at hb
          have hst := buildLoopF_StInv (buildFuel inputs fs) (initState inputs)
            (initQueue inputs) st (initState_StInv inputs) (initQueue_QBound inputs) hloop
          subst hb
          have hbound : ∀ i ∈ st.all_nodes, i < st.heap.length := by
            intro i hi
            rw [hst.allNodesEq, List.mem_reverse] at hi
            obtain ⟨p, hp, hpe⟩ := List.mem_map.mp hi
            exact hpe ▸ hst.cacheBound p hp
          have hmap : st.all_nodes.map (fun i => (heapGet st.heap i).module) =
              (st.cache.map (fun p => some p.1)).reverse := by
            rw [hst.allNodesEq, List.map_reverse]
            congr 1
            rw [List.map_map]
            apply List.map_congr_left
            intro p hp
            exact hst.cacheModule p hp
          refine ⟨hbound, hst.depsBound, hst.depntsBound, hst.symm, hst.depsReg,
            hst.visFalse, rfl, ?_, ?_⟩
          · rw [hmap, List.nodup_reverse]
            have h2 : st.cache.map (fun p => some p.1) =
                (st.cache.map Prod.fst).map some := by
              rw [List.map_map]
              rfl
            rw [h2]
            exact hst.keysNodup.map (fun a b hab => Option.some.inj hab)
          · intro i hi
            rw [hst.allNodesEq, List.mem_reverse] at hi
            obtain ⟨p, hp, hpe⟩ := List.mem_map.mp hi
            rw [← hpe, hst.cacheModule p hp]
            rfl

theorem LoopReach_StInv {fs : FileSystem} {sources : List String}
    {st : BuildState} {q : List Nat} {st2 : BuildState} {q2 : List Nat}
    (hin : StInv st) (hq : QBound st q) (h : LoopReach fs sources st q st2 q2) :
    StInv st2 ∧ QBound st2 q2 := by
  induction h with
  | refl st q => exact ⟨hin, hq⟩
  | step hp htail ih =>
      obtain ⟨hin2, hq2⟩ := processNode_StInv hin hq hp
      exact ih hin2 hq2

/-- Claim C3 (amended): during one build, for every name that is actually
registered through `get_node` — every declared module name, dependency name
and include-file path — exactly one node exists: no two registered nodes
share a module name, every registered node carries a name, and once a name
is mapped to a node, `get_node` returns that same node, with no state
change, at every later point of the build.  (Input file paths are not
themselves registered: the node parsed from an input file is keyed by its
declared module name.) -/
theorem C3_registered_names_unique (inputs sources : List String) (fs : FileSystem) :
    (∀ g, build inputs sources fs = .ok g →
      (g.all_nodes.map (fun i => (heapGet g.heap i).module)).Nodup ∧
      ∀ i ∈ g.all_nodes, ((heapGet g.heap i).module).isSome = true) ∧
    (∀ st q st2 q2 name i,
      LoopReach fs sources (initState inputs) (initQueue inputs) st q →
      LoopReach fs sources st q st2 q2 →
      List.lookup name st.cache = some i →
      (get_node st2 name).1 = i ∧ (get_node st2 name).2 = st2) := by
  constructor
  · intro g hb
    have h := build_ok_inv hb
    exact ⟨h.2.2.2.2.2.2.2.1, h.2.2.2.2.2.2.2.2⟩
  · intro st q st2 q2 name i h1 h2 hl
    obtain ⟨hinv1, hq1⟩ := LoopReach_StInv (initState_StInv inputs) (initQueue_QBound inputs) h1
    obtain ⟨hinv2, hq2⟩ := LoopReach_StInv hinv1 hq1 h2
    have hmem : (name, i) ∈ st.cache := lookup_mem hl
    obtain ⟨pre, hpre⟩ := (LoopReach_StepOK h2).hcache
    have hmem2 : (name, i) ∈ st2.cache := by
      rw [hpre]
      exact List.mem_append_right _ hmem
    have hl2 : st2.cache.lookup name = some i := lookup_of_keysNodup hinv2.keysNodup hmem2
    have hhas : has_node st2 name false = true := by
      rw [has_node_false_eq, hl2]
      rfl
    constructor
    · unfold get_node
      rw [if_pos hhas, hl2]
      rfl
    · unfold get_node
      rw [if_pos hhas]

/-- Witness for the amended C3 at the concrete two-module build: the two
registered nodes carry the distinct names `a.b.Foo` and `a.b.Bar`, and
mid-build `get_node` keeps returning node 2 for `a.b.Bar`. -/
theorem C3_registered_names_unique_witness :
    ((gTwoMods.all_nodes.map (fun i => (heapGet gTwoMods.heap i).module)).Nodup ∧
     ∀ i ∈ gTwoMods.all_nodes, ((heapGet gTwoMods.heap i).module).isSome = true) ∧
    ((get_node c9Mid.1 "a.b.Bar").1 = 2 ∧ (get_node c9Mid.1 "a.b.Bar").2 = c9Mid.1) :=
  ⟨(C3_registered_names_unique ["foo.js"] ["Bar.js"] fsTwoMods).1 gTwoMods rfl,
   (C3_registered_names_unique ["foo.js"] ["Bar.js"] fsTwoMods).2 c9Mid.1 c9Mid.2
     c9Mid.1 c9Mid.2 "a.b.Bar" 2
     (LoopReach.step
       (rfl : processNode fsTwoMods ["Bar.js"] (initState ["foo.js"]) 0 [] =
         .ok (c9Mid.1, c9Mid.2))
       (LoopReach.refl c9Mid.1 c9Mid.2))
     (LoopReach.refl c9Mid.1 c9Mid.2) rfl⟩

/-! ### Characterizing the build failure (claim C6) -/

/-- The claim's failure condition at one worklist node: the node is not
skipped as already loaded, and either no file is known and `guess_file`
finds no candidate, or the resolved/provided file path is not a file on
disk. -/
def failsAt (fs : FileSystem) (sources : List String) (st : BuildState) (n : Nat) : Bool :=
  !(skipLoaded st (heapGet st.heap n)) &&
    (match resolveFname sources (heapGet st.heap n) with
     | .ok none => true
     | .ok (some f) => !(isfile fs f)
     | .error _ => false)

theorem resolveFname_error {sources : List String} {node : DepNode} {e : BErr}
    (h : resolveFname sources node = .error e) :
    e = .pyCrash ∧ truthy node.file_name = false ∧ node.module = none := by
  unfold resolveFname at h
  by_cases ht : truthy node.file_name = true
  · rw [if_pos ht] at h
    cases h
  · rw [if_neg ht] at h
    cases hm : node.module with
    | some m =>
        rw [hm] at h
        cases h
    | none =>
        rw [hm] at h
        exact ⟨(Except.error.inj h).symm, by simpa using ht, rfl⟩

theorem processNode_buildException_iff (fs : FileSystem) (sources : List String)
    (st : BuildState) (n : Nat) (q : List Nat) :
    (∃ msg, processNode fs sources st n q = .error (.buildException msg)) ↔
    failsAt fs sources st n = true := by
  rcases processNode_cases fs sources st n q with
    ⟨hs, he⟩ | ⟨hs, hr, he⟩ | ⟨hs, hr, he⟩ | ⟨fname, hs, hr, hl, he⟩ |
    ⟨fname, name, deps, body, hs, hr, hl, he⟩ | ⟨fname, deps, hs, hr, hl, hd, he⟩ |
    ⟨fname, deps, hs, hr, hl, hd, he⟩ | ⟨fname, hs, hr, hl, he⟩
  · constructor
    · intro ⟨msg, hm⟩
      rw [he] at hm
      cases hm
    · intro hf
      unfold failsAt at hf
      rw [hs] at hf
      cases hf
  · constructor
    · intro ⟨msg, hm⟩
      rw [he] at hm
      cases Except.error.inj hm
    · intro hf
      unfold failsAt at hf
      rw [hs, hr] at hf
      cases hf
  · refine ⟨fun _ => ?_, fun _ => ⟨_, he⟩⟩
    unfold failsAt
    rw [hs, hr]
    rfl
  · refine ⟨fun _ => ?_, fun _ => ⟨_, he⟩⟩
    unfold failsAt
    rw [hs, hr]
    show (!false && !(isfile fs fname)) = true
    have hif : isfile fs fname = false := by
      unfold isfile
      rw [hl]
      rfl
    rw [hif]
    rfl
  · constructor
    · intro ⟨msg, hm⟩
      rw [he] at hm
      cases hm
    · intro hf
      unfold failsAt at hf
      rw [hs, hr] at hf
      have hif : isfile fs fname = true := by
        unfold isfile
        rw [hl]
        rfl
      simp [hif] at hf
  · constructor
    · intro ⟨msg, hm⟩
      rw [he] at hm
      cases hm
    · intro hf
      unfold failsAt at hf
      rw [hs, hr] at hf
      have hif : isfile fs fname = true := by
        unfold isfile
        rw [hl]
        rfl
      simp [hif] at hf
  · constructor
    · intro ⟨msg, hm⟩
      rw [he] at hm
      cases hm
    · intro hf
      unfold failsAt at hf
      rw [hs, hr] at hf
      have hif : isfile fs fname = true := by
        unfold isfile
        rw [hl]
        rfl
      simp [hif] at hf
  · constructor
    · intro ⟨msg, hm⟩
      rw [he] at hm
      cases hm
    · intro hf
      unfold failsAt at hf
      rw [hs, hr] at hf
      have hif : isfile fs fname = true := by
        unfold isfile
        rw [hl]
        rfl
      simp [hif] at hf

/-! ### A measure for the worklist loop -/

theorem lookup_mem_fd {l : FileSystem} {name : String} {fd : FileData}
    (h : l.lookup name = some fd) : (name, fd) ∈ l := by
  induction l with
  | nil => cases h
  | cons p rest ih =>
      rw [List.lookup_cons] at h
      by_cases hk : (name == p.1) = true
      · rw [hk] at h
        have h2 : p.2 = fd := Option.some.inj h
        have hname : name = p.1 := by simpa using hk
        rw [hname, ← h2]
        exact List.mem_cons_self _ _
      · rw [Bool.not_eq_true] at hk
        rw [hk] at h
        exact List.mem_cons_of_mem _ (ih h)

theorem mem_fsNames {fs : FileSystem} {fname : String} {fd : FileData}
    (hl : fs.lookup fname = some fd) : ∀ d ∈ fdDeps fd, d ∈ fsNames fs := by
  intro d hd
  have hmem := lookup_mem_fd hl
  clear hl
  induction fs with
  | nil => cases hmem
  | cons p rest ih =>
      show d ∈ fdDeps p.2 ++ fsNames rest
      rcases List.mem_cons.mp hmem with h1 | h1
      · apply List.mem_append_left
        have h2 : fd = p.2 := congrArg Prod.snd h1
        rw [← h2]
        exact hd
      · exact List.mem_append_right _ (ih h1)

theorem filter_length_mono {l : List String} {p p2 : String → Bool}
    (h : ∀ x, p2 x = true → p x = true) : (l.filter p2).length ≤ (l.filter p).length := by
  induction l with
  | nil => exact le_refl _
  | cons a tl ih =>
      rw [List.filter_cons, List.filter_cons]
      by_cases h2 : p2 a = true
      · rw [if_pos h2, if_pos (h a h2)]
        simp only [List.length_cons]
        exact Nat.succ_le_succ ih
      · rw [if_neg h2]
        by_cases h1 : p a = true
        · rw [if_pos h1]
          exact le_trans ih (Nat.le_succ _)
        · rw [if_neg h1]
          exact ih

theorem filter_length_remove {l : List String} {p p2 : String → Bool} {d : String}
    (hd : d ∈ l) (hpd : p d = true) (h : ∀ x, p2 x = (!(x == d) && p x)) :
    (l.filter p2).length + 1 ≤ (l.filter p).length := by
  have hmono : ∀ tl : List String, (List.filter p2 tl).length ≤ (List.filter p tl).length := by
    intro tl
    apply filter_length_mono
    intro x hx
    have h3 := h x
    rw [hx] at h3
    have h4 : (!(x == d)) = true ∧ p x = true := by simpa using h3.symm
    exact h4.2
  induction l with
  | nil => cases hd
  | cons a tl ih =>
      rw [List.filter_cons, List.filter_cons]
      by_cases ha : (a == d) = true
      · have hae : a = d := by simpa using ha
        have hp2a : p2 a = false := by
          rw [h a, ha]
          rfl
        rw [if_neg (by rw [hp2a]; exact Bool.false_ne_true),
          if_pos (by rw [hae]; exact hpd)]
        simp only [List.length_cons]
        have := hmono tl
        omega
      · have hab : (a == d) = false := by simpa using ha
        have hd2 : d ∈ tl := by
          rcases List.mem_cons.mp hd with h1 | h1
          · exfalso
            rw [h1] at hab
            simp at hab
          · exact h1
        have hp2a : p2 a = p a := by
          rw [h a, hab]
          simp
        by_cases hpa : p a = true
        · rw [if_pos (hp2a.trans hpa), if_pos hpa]
          simp only [List.length_cons]
          have := ih hd2
          omega
        · have hpab : p a = false := by simpa using hpa
          rw [if_neg (by rw [hp2a, hpab]; exact Bool.false_ne_true), if_neg hpa]
          exact ih hd2

/-- Dependency names of the filesystem not yet in the registry. -/
def freshCount (fs : FileSystem) (cache : List (String × Nat)) : Nat :=
  ((fsNames fs).filter (fun x => (cache.lookup x).isNone)).length

/-- The loop measure: pending worklist entries plus names that could still
be enqueued. -/
def loopMeasure (fs : FileSystem) (st : BuildState) (q : List Nat) : Nat :=
  q.length + freshCount fs st.cache

theorem freshCount_cons_le (fs : FileSystem) (p : String × Nat)
    (cache : List (String × Nat)) : freshCount fs (p :: cache) ≤ freshCount fs cache := by
  apply filter_length_mono
  intro x hx
  rw [List.lookup_cons] at hx
  by_cases hk : (x == p.1) = true
  · rw [hk] at hx
    cases hx
  · rw [Bool.not_eq_true] at hk
    rw [hk] at hx
    exact hx

theorem get_node_freshCount (fs : FileSystem) (st : BuildState) (name : String) :
    freshCount fs (get_node st name).2.cache ≤ freshCount fs st.cache := by
  rcases get_node_cases st name with ⟨h, hg⟩ | ⟨h, hg⟩
  · rw [hg]
  · rw [hg]
    exact freshCount_cons_le fs _ st.cache

theorem add_node_dep_measure {fs : FileSystem} (st : BuildState) (q : List Nat)
    (target : Nat) {d : String} (hd : d ∈ fsNames fs) :
    loopMeasure fs (add_node_dep st q target d).1 (add_node_dep st q target d).2 ≤
      loopMeasure fs st q := by
  rcases add_node_dep_cases st q target d with ⟨h, ha⟩ | ⟨h, ha⟩
  · rw [ha]
    exact le_refl _
  · rw [ha]
    show (q ++ [st.heap.length]).length +
      freshCount fs ((d, st.heap.length) :: st.cache) ≤ q.length + freshCount fs st.cache
    rw [List.length_append]
    have hnone : (st.cache.lookup d).isNone = true := by
      rw [has_node_false_eq] at h
      cases hl : st.cache.lookup d with
      | none => rfl
      | some i => rw [hl] at h; cases h
    have hrem : (((fsNames fs).filter
        (fun x => (((d, st.heap.length) :: st.cache).lookup x).isNone)).length) + 1 ≤
        ((fsNames fs).filter (fun x => (st.cache.lookup x).isNone)).length := by
      apply filter_length_remove hd hnone
      intro x
      rw [List.lookup_cons]
      by_cases hk : (x == d) = true
      · rw [hk]
        rfl
      · rw [Bool.not_eq_true] at hk
        rw [hk]
        simp [hk]
    show q.length + 1 + (((fsNames fs).filter
      (fun x => (((d, st.heap.length) :: st.cache).lookup x).isNone)).length) ≤
      q.length + ((fsNames fs).filter (fun x => (st.cache.lookup x).isNone)).length
    omega

theorem dep_loop_measure {fs : FileSystem} {target : Nat} {ds : List String}
    (hds : ∀ d ∈ ds, d ∈ fsNames fs) :
    ∀ (st : BuildState) (q : List Nat),
      loopMeasure fs (dep_loop target ds st q).1 (dep_loop target ds st q).2 ≤
        loopMeasure fs st q := by
  induction ds with
  | nil => intro st q; exact le_refl _
  | cons d ds ih =>
      intro st q
      rw [dep_loop_cons]
      refine le_trans (ih (fun x hx => hds x (List.mem_cons_of_mem _ hx)) _ _) ?_
      exact add_node_dep_measure st q target (hds d (List.mem_cons_self _ _))

theorem moduleStep_cache (st : BuildState) (fname name body : String) :
    (moduleStep st fname name body).cache = (get_node st name).2.cache := rfl

theorem includeStep_cache (st : BuildState) (fname : String) :
    (includeStep st fname).cache = (get_node st fname).2.cache := rfl

theorem processNode_measure {fs : FileSystem} {sources : List String} {st : BuildState}
    {n : Nat} {rest : List Nat} {st2 : BuildState} {q2 : List Nat}
    (h : processNode fs sources st n rest = .ok (st2, q2)) :
    loopMeasure fs st2 q2 < loopMeasure fs st (n :: rest) := by
  have hbase : loopMeasure fs st (n :: rest) =
      rest.length + 1 + freshCount fs st.cache := by
    show (n :: rest).length + freshCount fs st.cache = _
    rw [List.length_cons]
  rcases processNode_cases fs sources st n rest with
    ⟨hs, he⟩ | ⟨hs, hr, he⟩ | ⟨hs, hr, he⟩ | ⟨fname, hs, hr, hl, he⟩ |
    ⟨fname, name, deps, body, hs, hr, hl, he⟩ | ⟨fname, deps, hs, hr, hl, hd, he⟩ |
    ⟨fname, deps, hs, hr, hl, hd, he⟩ | ⟨fname, hs, hr, hl, he⟩
  · have h2 := Except.ok.inj (he.symm.trans h)
    have hst : st = st2 := congrArg Prod.fst h2
    have hqe : rest = q2 := congrArg Prod.snd h2
    rw [← hst, ← hqe, hbase]
    show rest.length + freshCount fs st.cache < _
    omega
  · rw [he] at h
    cases h
  · rw [he] at h
    cases h
  · rw [he] at h
    cases h
  · have h2 := Except.ok.inj (he.symm.trans h)
    have hst : (dep_loop (get_node st name).1 deps (moduleStep st fname name body) rest).1
        = st2 := congrArg Prod.fst h2
    have hqe : (dep_loop (get_node st name).1 deps (moduleStep st fname name body) rest).2
        = q2 := congrArg Prod.snd h2
    rw [← hst, ← hqe, hbase]
    have hdl := @dep_loop_measure fs (get_node st name).1 deps (mem_fsNames hl)
      (moduleStep st fname name body) rest
    have hfr : freshCount fs (moduleStep st fname name body).cache ≤
        freshCount fs st.cache := by
      rw [moduleStep_cache]
      exact get_node_freshCount fs st name
    have hms : loopMeasure fs (moduleStep st fname name body) rest ≤
        rest.length + freshCount fs st.cache := by
      show rest.length + freshCount fs (moduleStep st fname name body).cache ≤ _
      omega
    have := le_trans hdl hms
    omega
  · have h2 := Except.ok.inj (he.symm.trans h)
    have hst : (dep_loop n deps (includeStep st fname) rest).1 = st2 :=
      congrArg Prod.fst h2
    have hqe : (dep_loop n deps (includeStep st fname) rest).2 = q2 :=
      congrArg Prod.snd h2
    rw [← hst, ← hqe, hbase]
    have hdl := @dep_loop_measure fs n deps (mem_fsNames hl) (includeStep st fname) rest
    have hfr : freshCount fs (includeStep st fname).cache ≤ freshCount fs st.cache := by
      rw [includeStep_cache]
      exact get_node_freshCount fs st fname
    have hms : loopMeasure fs (includeStep st fname) rest ≤
        rest.length + freshCount fs st.cache := by
      show rest.length + freshCount fs (includeStep st fname).cache ≤ _
      omega
    have := le_trans hdl hms
    omega
  · have h2 := Except.ok.inj (he.symm.trans h)
    have hst : st = st2 := congrArg Prod.fst h2
    have hqe : rest = q2 := congrArg Prod.snd h2
    rw [← hst, ← hqe, hbase]
    show rest.length + freshCount fs st.cache < _
    omega
  · have h2 := Except.ok.inj (he.symm.trans h)
    have hst : st = st2 := congrArg Prod.fst h2
    have hqe : rest = q2 := congrArg Prod.snd h2
    rw [← hst, ← hqe, hbase]
    show rest.length + freshCount fs st.cache < _
    omega

theorem buildLoopF_suff {fs : FileSystem} {sources : List String} :
    ∀ (fuel : Nat) (st : BuildState) (q : List Nat),
      loopMeasure fs st q < fuel → ∃ r, buildLoopF fs sources fuel st q = some r := by
  intro fuel
  induction fuel with
  | zero =>
      intro st q h
      exact absurd h (Nat.not_lt_zero _)
  | succ fuel ih =>
      intro st q h
      cases q with
      | nil => exact ⟨.ok st, by rw [buildLoopF]⟩
      | cons n rest =>
          cases hp : processNode fs sources st n rest with
          | error e =>
              refine ⟨.error e, ?_⟩
              rw [buildLoopF, hp]
          | ok p =>
              have hm := processNode_measure
                (show processNode fs sources st n rest = .ok (p.1, p.2) from hp)
              obtain ⟨r, hr⟩ := ih p.1 p.2 (by omega)
              refine ⟨r, ?_⟩
              rw [buildLoopF, hp]
              exact hr

theorem buildLoopF_error_reach {fs : FileSystem} {sources : List String} :
    ∀ (fuel : Nat) (st : BuildState) (q : List Nat) (e : BErr),
      buildLoopF fs sources fuel st q = some (.error e) →
      ∃ st2 n q2, LoopReach fs sources st q st2 (n :: q2) ∧
        processNode fs sources st2 n q2 = .error e := by
  intro fuel
  induction fuel with
  | zero =>
      intro st q e h
      cases h
  | succ fuel ih =>
      intro st q e h
      cases q with
      | nil =>
          rw [buildLoopF] at h
          cases Option.some.inj h
      | cons n rest =>
          rw [buildLoopF] at h
          cases hp : processNode fs sources st n rest with
          | error e2 =>
              rw [hp] at h
              have he2 : e2 = e := Except.error.inj (Option.some.inj h)
              exact ⟨st, n, rest, LoopReach.refl _ _, by rw [hp, he2]⟩
          | ok p =>
              rw [hp] at h
              obtain ⟨st2, n2, q2, hreach, herr⟩ := ih p.1 p.2 e h
              exact ⟨st2, n2, q2,
                LoopReach.step (show processNode fs sources st n rest = .ok (p.1, p.2) from hp)
                  hreach, herr⟩

theorem reach_error_loop {fs : FileSystem} {sources : List String}
    {st : BuildState} {q : List Nat} {st2 : BuildState} {q2 : List Nat} {e : BErr}
    (hreach : LoopReach fs sources st q st2 q2) :
    ∀ n q3, q2 = n :: q3 →
      processNode fs sources st2 n q3 = .error e →
      ∀ fuel, loopMeasure fs st q < fuel →
        buildLoopF fs sources fuel st q = some (.error e) := by
  induction hreach with
  | refl st q =>
      intro n q3 hq herr fuel hm
      subst hq
      cases fuel with
      | zero => exact absurd hm (Nat.not_lt_zero _)
      | succ fuel =>
          rw [buildLoopF, herr]
  | step hp htail ih =>
      intro n q3 hq herr fuel hm
      cases fuel with
      | zero => exact absurd hm (Nat.not_lt_zero _)
      | succ fuel =>
          have hme := processNode_measure hp
          have hrec := ih n q3 hq herr fuel (by omega)
          rw [buildLoopF, hp]
          exact hrec

/-- Every worklist entry either names a module or carries a truthy file
name (so resolving it can never hit Python's `None.split` crash). -/
def GoodQ (st : BuildState) (q : List Nat) : Prop :=
  ∀ n ∈ q, ((heapGet st.heap n).module).isSome = true ∨
    truthy (heapGet st.heap n).file_name = true

theorem initGoodQ (inputs : List String) (hin : ∀ f ∈ inputs, f ≠ "") :
    GoodQ (initState inputs) (initQueue inputs) := by
  intro n hn
  have h2 : n < inputs.length := List.mem_range.mp hn
  right
  show truthy (heapGet (initHeap inputs) n).file_name = true
  unfold heapGet initHeap
  rw [List.getD_eq_getElem _ _ (by simpa using h2)]
  rw [List.getElem_map]
  show truthy (some inputs[n]) = true
  have := hin inputs[n] (List.getElem_mem h2)
  simp [truthy, this]

theorem add_node_dep_good {st : BuildState} (hinv : StInv st) (q : List Nat)
    {target : Nat} (ht : target < st.heap.length) (d : String) :
    ∀ n ∈ (add_node_dep st q target d).2, n ∈ q ∨
      (n < (add_node_dep st q target d).1.heap.length ∧
       ((heapGet (add_node_dep st q target d).1.heap n).module).isSome = true) := by
  intro n hn
  rw [add_node_dep_snd] at hn
  by_cases h : has_node st d false = true
  · rw [if_pos h] at hn
    exact Or.inl hn
  · rw [if_neg h] at hn
    rcases List.mem_append.mp hn with h1 | h1
    · exact Or.inl h1
    · right
      obtain ⟨hinv2, hlt, hmods, hreg⟩ := get_node_StInv hinv d
      have hfst := add_node_dep_fst st q target d
      have hlen : (add_node_dep st q target d).1.heap.length =
          (get_node st d).2.heap.length := by
        rw [hfst]
        exact push_dependency_length _ _ _
      have hne : n = (get_node st d).1 := List.mem_singleton.mp h1
      subst hne
      refine ⟨by rw [hlen]; exact hlt, ?_⟩
      have hmod2 : (heapGet (add_node_dep st q target d).1.heap (get_node st d).1).module =
          (heapGet (get_node st d).2.heap (get_node st d).1).module := by
        rw [hfst]
        show (heapGet (push_dependency (get_node st d).2.heap target (get_node st d).1)
          (get_node st d).1).module = _
        rw [heapGet_push_dependency _ _ _ (lt_of_lt_of_le ht (get_node_StepOK st d).hlen) hlt]
      rw [hmod2, hmods]
      rfl

theorem dep_loop_good {target : Nat} {ds : List String} :
    ∀ (st : BuildState) (q : List Nat), StInv st → target < st.heap.length →
      ∀ n ∈ (dep_loop target ds st q).2, n ∈ q ∨
        (n < (dep_loop target ds st q).1.heap.length ∧
         ((heapGet (dep_loop target ds st q).1.heap n).module).isSome = true) := by
  induction ds with
  | nil =>
      intro st q hinv ht n hn
      exact Or.inl hn
  | cons d ds ih =>
      intro st q hinv ht n hn
      rw [dep_loop_cons] at hn ⊢
      obtain ⟨hinv1, hle1, hq1⟩ := add_node_dep_StInv hinv q ht d
      rcases ih (add_node_dep st q target d).1 (add_node_dep st q target d).2 hinv1
          (lt_of_lt_of_le ht hle1) n hn with h1 | h1
      · rcases add_node_dep_good hinv q ht d n h1 with h2 | h2
        · exact Or.inl h2
        · right
          have hstep := dep_loop_StepOK target ds (add_node_dep st q target d).1
            (add_node_dep st q target d).2
          refine ⟨lt_of_lt_of_le h2.1 hstep.hlen, ?_⟩
          rw [hstep.hmod n h2.1]
          exact h2.2
      · exact Or.inr h1

theorem processNode_GoodQ {fs : FileSystem} {sources : List String} {st : BuildState}
    {nidx : Nat} {queue : List Nat} {st2 : BuildState} {q2 : List Nat}
    (hinv : StInv st) (hq : QBound st (nidx :: queue)) (hg : GoodQ st (nidx :: queue))
    (h : processNode fs sources st nidx queue = .ok (st2, q2)) : GoodQ st2 q2 := by
  have hstep := processNode_StepOK h
  have htail : ∀ n ∈ queue, ((heapGet st2.heap n).module).isSome = true ∨
      truthy (heapGet st2.heap n).file_name = true := by
    intro n hn
    have hb := hq n (List.mem_cons_of_mem _ hn)
    rcases hg n (List.mem_cons_of_mem _ hn) with h1 | h1
    · left
      rw [hstep.hmod n hb]
      exact h1
    · right
      exact hstep.hfile n h1
  have hnidx : nidx < st.heap.length := hq nidx (List.mem_cons_self _ _)
  rcases processNode_cases fs sources st nidx queue with
    ⟨hs, he⟩ | ⟨hs, hr, he⟩ | ⟨hs, hr, he⟩ | ⟨fname, hs, hr, hl, he⟩ |
    ⟨fname, name, deps, body, hs, hr, hl, he⟩ | ⟨fname, deps, hs, hr, hl, hd, he⟩ |
    ⟨fname, deps, hs, hr, hl, hd, he⟩ | ⟨fname, hs, hr, hl, he⟩
  · have h2 := Except.ok.inj (he.symm.trans h)
    have hqe : queue = q2 := congrArg Prod.snd h2
    intro n hn
    exact htail n (hqe ▸ hn)
  · rw [he] at h
    cases h
  · rw [he] at h
    cases h
  · rw [he] at h
    cases h
  · have h2 := Except.ok.inj (he.symm.trans h)
    have hst : (dep_loop (get_node st name).1 deps (moduleStep st fname name body) queue).1
        = st2 := congrArg Prod.fst h2
    have hqe : (dep_loop (get_node st name).1 deps (moduleStep st fname name body) queue).2
        = q2 := congrArg Prod.snd h2
    intro n hn
    obtain ⟨hms, hle, hlt⟩ := moduleStep_StInv2 hinv fname name body
    rcases dep_loop_good (moduleStep st fname name body) queue hms hlt n
        (by rw [hqe]; exact hn) with h1 | h1
    · exact htail n h1
    · left
      rw [← hst]
      exact h1.2
  · have h2 := Except.ok.inj (he.symm.trans h)
    have hst : (dep_loop nidx deps (includeStep st fname) queue).1 = st2 :=
      congrArg Prod.fst h2
    have hqe : (dep_loop nidx deps (includeStep st fname) queue).2 = q2 :=
      congrArg Prod.snd h2
    intro n hn
    obtain ⟨his, hle⟩ := includeStep_StInv2 hinv fname
    rcases dep_loop_good (includeStep st fname) queue his
        (lt_of_lt_of_le hnidx hle) n (by rw [hqe]; exact hn) with h1 | h1
    · exact htail n h1
    · left
      rw [← hst]
      exact h1.2
  · have h2 := Except.ok.inj (he.symm.trans h)
    have hqe : queue = q2 := congrArg Prod.snd h2
    intro n hn
    exact htail n (hqe ▸ hn)
  · have h2 := Except.ok.inj (he.symm.trans h)
    have hqe : queue = q2 := congrArg Prod.snd h2
    intro n hn
    exact htail n (hqe ▸ hn)

theorem LoopReach_GoodQ {fs : FileSystem} {sources : List String}
    {st : BuildState} {q : List Nat} {st2 : BuildState} {q2 : List Nat}
    (hinv : StInv st) (hq : QBound st q) (hg : GoodQ st q)
    (h : LoopReach fs sources st q st2 q2) : GoodQ st2 q2 := by
  induction h with
  | refl st q => exact hg
  | step hp htail ih =>
      obtain ⟨hinv2, hq2⟩ := processNode_StInv hinv hq hp
      exact ih hinv2 hq2 (processNode_GoodQ hinv hq hg hp)

theorem processNode_error_kind {fs : FileSystem} {sources : List String} {st : BuildState}
    {n : Nat} {q : List Nat} {e : BErr}
    (h : processNode fs sources st n q = .error e)
    (hgood : ((heapGet st.heap n).module).isSome = true ∨
      truthy (heapGet st.heap n).file_name = true) :
    ∃ msg, e = .buildException msg := by
  rcases processNode_cases fs sources st n q with
    ⟨hs, he⟩ | ⟨hs, hr, he⟩ | ⟨hs, hr, he⟩ | ⟨fname, hs, hr, hl, he⟩ |
    ⟨fname, name, deps, body, hs, hr, hl, he⟩ | ⟨fname, deps, hs, hr, hl, hd, he⟩ |
    ⟨fname, deps, hs, hr, hl, hd, he⟩ | ⟨fname, hs, hr, hl, he⟩
  · rw [he] at h
    cases h
  · exfalso
    obtain ⟨h1, h2, h3⟩ := resolveFname_error hr
    rcases hgood with h4 | h4
    · rw [h3] at h4
      cases h4
    · rw [h2] at h4
      cases h4
  · exact ⟨_, (Except.error.inj (he.symm.trans h)).symm⟩
  · exact ⟨_, (Except.error.inj (he.symm.trans h)).symm⟩
  · rw [he] at h
    cases h
  · rw [he] at h
    cases h
  · rw [he] at h
    cases h
  · rw [he] at h
    cases h

theorem init_measure_lt (inputs : List String) (fs : FileSystem) :
    loopMeasure fs (initState inputs) (initQueue inputs) < buildFuel inputs fs := by
  have h1 : (initQueue inputs).length = inputs.length := by
    unfold initQueue
    simp
  have h2 : freshCount fs (initState inputs).cache ≤ (fsNames fs).length := by
    unfold freshCount
    exact List.length_filter_le _ _
  show (initQueue inputs).length + freshCount fs (initState inputs).cache < _
  unfold buildFuel
  omega

/-- Claim C6: `DepGraph.build` raises the uniform build failure
(`BuildException`, aborting the whole build so that no leaves are
returned) exactly when some reachable worklist configuration has a head
node that is not skipped as already loaded and whose file cannot be
resolved — no file is known and `guess_file` finds no candidate, or the
resolved/provided path is not a file on disk.  Moreover (for input paths
that are not empty strings, where Python instead dies with an uncaught
`AttributeError`), every build failure is of that single uniform kind. -/
theorem C6_build_fails_iff_unresolved (inputs sources : List String) (fs : FileSystem) :
    ((∃ msg, build inputs sources fs = .error (.buildException msg)) ↔
      ∃ st q n, LoopReach fs sources (initState inputs) (initQueue inputs) st (n :: q) ∧
        failsAt fs sources st n = true) ∧
    ((∀ f ∈ inputs, f ≠ "") →
      ∀ e, build inputs sources fs = .error e → ∃ msg, e = .buildException msg) := by
  constructor
  · constructor
    · rintro ⟨msg, hb⟩
      unfold build at hb
      cases hloop : buildLoopF fs sources (buildFuel inputs fs) (initState inputs)
          (initQueue inputs) with
      | none =>
          rw [hloop] at hb
          cases Except.error.inj hb
      | some r =>
          rw [hloop] at hb
          cases r with
          | ok st => cases hb
          | error e =>
              have he : e = .buildException msg := Except.error.inj hb
              subst he
              obtain ⟨st2, n, q2, hreach, herr⟩ :=
                buildLoopF_error_reach (buildFuel inputs fs) (initState inputs)
                  (initQueue inputs) _ hloop
              refine ⟨st2, q2, n, hreach, ?_⟩
              exact (processNode_buildException_iff fs sources st2 n q2).mp ⟨msg, herr⟩
    · rintro ⟨st2, q, n, hreach, hfails⟩
      obtain ⟨msg, herr⟩ := (processNode_buildException_iff fs sources st2 n q).mpr hfails
      refine ⟨msg, ?_⟩
      unfold build
      rw [reach_error_loop hreach n q rfl herr (buildFuel inputs fs)
        (init_measure_lt inputs fs)]
  · intro hin e hb
    unfold build at hb
    cases hloop : buildLoopF fs sources (buildFuel inputs fs) (initState inputs)
        (initQueue inputs) with
    | none =>
        exfalso
        obtain ⟨r, hr⟩ := buildLoopF_suff (buildFuel inputs fs) (initState inputs)
          (initQueue inputs) (init_measure_lt inputs fs)
        rw [hloop] at hr
        cases hr
    | some r =>
        rw [hloop] at hb
        cases r with
        | ok st => cases hb
        | error e2 =>
            have he : e2 = e := Except.error.inj hb
            subst he
            obtain ⟨st2, n, q2, hreach, herr⟩ :=
              buildLoopF_error_reach (buildFuel inputs fs) (initState inputs)
                (initQueue inputs) _ hloop
            have hg2 := LoopReach_GoodQ (initState_StInv inputs) (initQueue_QBound inputs)
              (initGoodQ inputs hin) hreach
            exact processNode_error_kind herr (hg2 n (List.mem_cons_self _ _))

/-- Witness for C6 at a concrete failing build: the single input `a.js`
does not exist on an empty filesystem. -/
theorem C6_build_fails_iff_unresolved_witness :
    (∃ msg, build ["a.js"] [] [] = .error (.buildException msg)) ∧
    (∃ msg, (BErr.buildException "Could not find file for module None") =
      .buildException msg) :=
  ⟨(C6_build_fails_iff_unresolved ["a.js"] [] []).1.mpr
     ⟨initState ["a.js"], [], 0, LoopReach.refl (initState ["a.js"]) (initQueue ["a.js"]),
      by decide⟩,
   (C6_build_fails_iff_unresolved ["a.js"] [] []).2 (by decide) _ rfl⟩

/-! ### Topological order of `evaluate_chain` (claim C1) -/

/-- Node `a` depends on node `b` in graph `g`. -/
def dependsOn (g : DepGraph) (a b : Nat) : Prop := b ∈ depsAt g.heap a

/-- The dependency edge relation of a heap. -/
def depRel (heap : List DepNode) (a b : Nat) : Prop := b ∈ depsAt heap a

/-- The traversal edge relation of `visit`: from a node to its dependents. -/
def dRel (heap : List DepNode) (x y : Nat) : Prop := y ∈ depntsAt heap x

/-- A graph is acyclic when no node transitively depends on itself. -/
def Acyclic (g : DepGraph) : Prop := ∀ n, ¬ Relation.TransGen (dependsOn g) n n

/-- The visited flag of the node at index `i`. -/
def visitedF (heap : List DepNode) (i : Nat) : Bool := (heapGet heap i).visited

/-- The number of unvisited in-range nodes; the DFS recursion depth bound. -/
def unvisitedCount (heap : List DepNode) : Nat :=
  ((List.range heap.length).filter (fun i => !(visitedF heap i))).length

/-- The heaps reached during `evaluate_chain` agree with the built heap on
everything the traversal reads: length, dependency lists, dependent lists. -/
def HeapSim (heap0 heap : List DepNode) : Prop :=
  heap.length = heap0.length ∧
  (∀ i, depsAt heap i = depsAt heap0 i) ∧
  (∀ i, depntsAt heap i = depntsAt heap0 i)

theorem HeapSim_refl (heap : List DepNode) : HeapSim heap heap :=
  ⟨rfl, fun _ => rfl, fun _ => rfl⟩

theorem HeapFrame_toSim {heap0 h1 h2 : List DepNode}
    (hf : HeapFrame h2 h1) (hs : HeapSim heap0 h1) : HeapSim heap0 h2 := by
  refine ⟨hf.1.trans hs.1, ?_, ?_⟩
  · intro i
    have h := (hf.2 i).2.2.2.2.2.1
    unfold depsAt
    rw [h]
    exact hs.2.1 i
  · intro i
    have h := (hf.2 i).2.2.2.2.2.2
    unfold depntsAt
    rw [h]
    exact hs.2.2 i

/-- The chain invariant: no duplicates, and every dependent of a chain
member occurs strictly later in the chain. -/
def TopoOK (heap0 : List DepNode) (chain : List Nat) : Prop :=
  chain.Nodup ∧
  ∀ l1 c l2, chain = l1 ++ c :: l2 → ∀ d ∈ depntsAt heap0 c, d ∈ l2

/-- The DFS invariant: the visited set is exactly the chain plus the
in-progress ancestors `A`, the chain is topologically consistent, and no
ancestor is already in the chain. -/
def VisitInv (heap0 heap : List DepNode) (chain A : List Nat) : Prop :=
  (∀ x, visitedF heap x = true ↔ (x ∈ chain ∨ x ∈ A)) ∧
  TopoOK heap0 chain ∧
  (∀ x ∈ A, x ∉ chain)

theorem visitedF_set {heap : List DepNode} {n : Nat} {node : DepNode}
    (hx : heap[n]? = some node) (x : Nat) :
    visitedF (heap.set n { node with visited := true }) x =
      if x = n then true else visitedF heap x := by
  have hlt := lt_length_of_getElem? hx
  unfold visitedF heapGet
  by_cases hc : x = n
  · subst hc
    rw [if_pos rfl, List.getD_eq_getElem _ _ (by simpa using hlt), List.getElem_set_self]
  · rw [if_neg hc]
    rcases Nat.lt_or_ge x heap.length with h2 | h2
    · rw [List.getD_eq_getElem _ _ (by simpa using h2), List.getD_eq_getElem _ _ h2,
        List.getElem_set_ne (by omega)]
    · rw [List.getD_eq_default _ _ (by simpa using h2), List.getD_eq_default _ _ h2]

theorem filter_len_mono {α : Type} {l : List α} {p p2 : α → Bool}
    (h : ∀ x, p2 x = true → p x = true) : (l.filter p2).length ≤ (l.filter p).length := by
  induction l with
  | nil => exact le_refl _
  | cons a tl ih =>
      rw [List.filter_cons, List.filter_cons]
      by_cases h2 : p2 a = true
      · rw [if_pos h2, if_pos (h a h2)]
        simp only [List.length_cons]
        exact Nat.succ_le_succ ih
      · rw [if_neg h2]
        by_cases h1 : p a = true
        · rw [if_pos h1]
          exact le_trans ih (Nat.le_succ _)
        · rw [if_neg h1]
          exact ih

theorem filter_len_remove {l : List Nat} {p p2 : Nat → Bool} {d : Nat}
    (hd : d ∈ l) (hpd : p d = true) (h : ∀ x, p2 x = (!(x == d) && p x)) :
    (l.filter p2).length + 1 ≤ (l.filter p).length := by
  have hmono : ∀ tl : List Nat, (List.filter p2 tl).length ≤ (List.filter p tl).length := by
    intro tl
    apply filter_len_mono
    intro x hx
    have h3 := h x
    rw [hx] at h3
    have h4 : (!(x == d)) = true ∧ p x = true := by simpa using h3.symm
    exact h4.2
  induction l with
  | nil => cases hd
  | cons a tl ih =>
      rw [List.filter_cons, List.filter_cons]
      by_cases ha : (a == d) = true
      · have hae : a = d := by simpa using ha
        have hp2a : p2 a = false := by
          rw [h a, ha]
          rfl
        rw [if_neg (by rw [hp2a]; exact Bool.false_ne_true),
          if_pos (by rw [hae]; exact hpd)]
        simp only [List.length_cons]
        have := hmono tl
        omega
      · have hab : (a == d) = false := by simpa using ha
        have hd2 : d ∈ tl := by
          rcases List.mem_cons.mp hd with h1 | h1
          · exfalso
            rw [h1] at hab
            simp at hab
          · exact h1
        have hp2a : p2 a = p a := by
          rw [h a, hab]
          simp
        by_cases hpa : p a = true
        · rw [if_pos (hp2a.trans hpa), if_pos hpa]
          simp only [List.length_cons]
          have := ih hd2
          omega
        · have hpab : p a = false := by simpa using hpa
          rw [if_neg (by rw [hp2a, hpab]; exact Bool.false_ne_true), if_neg hpa]
          exact ih hd2

theorem unvisited_mono {h1 h2 : List DepNode}
    (hlen : h2.length = h1.length)
    (hmono : ∀ i, visitedF h1 i = true → visitedF h2 i = true) :
    unvisitedCount h2 ≤ unvisitedCount h1 := by
  unfold unvisitedCount
  rw [hlen]
  apply filter_len_mono
  intro x hx
  rw [Bool.not_eq_eq_eq_not] at hx ⊢
  simp only [Bool.not_true] at hx ⊢
  cases hv : visitedF h1 x with
  | false => rfl
  | true =>
      rw [hmono x hv] at hx
      cases hx

theorem unvisited_set {heap : List DepNode} {n : Nat} {node : DepNode}
    (hx : heap[n]? = some node) (hv : node.visited = false) :
    unvisitedCount (heap.set n { node with visited := true }) + 1 ≤
      unvisitedCount heap := by
  have hlt := lt_length_of_getElem? hx
  unfold unvisitedCount
  rw [List.length_set]
  apply filter_len_remove (List.mem_range.mpr hlt)
  · show (!(visitedF heap n)) = true
    have : visitedF heap n = node.visited := by
      unfold visitedF
      rw [heapGet_of_getElem? hx]
    rw [this, hv]
    rfl
  · intro x
    rw [visitedF_set hx x]
    by_cases hc : x = n
    · rw [if_pos hc]
      have : (x == n) = true := by simpa using hc
      rw [this]
      rfl
    · rw [if_neg hc]
      have : (x == n) = false := by simpa using hc
      rw [this]
      simp

theorem rtg_dRel_flip {heap0 : List DepNode} (hsym : EdgeSymm heap0) {x y : Nat}
    (h : Relation.ReflTransGen (dRel heap0) x y) :
    Relation.ReflTransGen (depRel heap0) y x := by
  induction h with
  | refl => exact Relation.ReflTransGen.refl
  | tail hab hbc ih =>
      rename_i b c
      exact Relation.ReflTransGen.head ((hsym c b).mpr hbc) ih

theorem visit_main {heap0 : List DepNode}
    (hwfn : ∀ i, ∀ d ∈ depntsAt heap0 i, d < heap0.length)
    (hsym : EdgeSymm heap0)
    (hacy : ∀ x, ¬ Relation.TransGen (depRel heap0) x x) :
    ∀ (fuel n : Nat) (chain : List Nat) (heap : List DepNode) (A : List Nat),
      HeapSim heap0 heap →
      unvisitedCount heap < fuel →
      n < heap0.length →
      VisitInv heap0 heap chain A →
      (∀ x ∈ A, Relation.ReflTransGen (dRel heap0) x n) →
      HeapSim heap0 (visitF fuel n (chain, heap)).2 ∧
      unvisitedCount (visitF fuel n (chain, heap)).2 ≤ unvisitedCount heap ∧
      VisitInv heap0 (visitF fuel n (chain, heap)).2 (visitF fuel n (chain, heap)).1 A ∧
      (∃ Δ, (visitF fuel n (chain, heap)).1 = Δ ++ chain) ∧
      visitedF (visitF fuel n (chain, heap)).2 n = true := by
  intro fuel
  induction fuel with
  | zero =>
      intro n chain heap A _ hfuel _ _ _
      exact absurd hfuel (Nat.not_lt_zero _)
  | succ fuel ih =>
      intro n chain heap A hsim hfuel hn hinv hanc
      have hn2 : n < heap.length := by rw [hsim.1]; exact hn
      have hx : heap[n]? = some heap[n] := List.getElem?_eq_getElem hn2
      generalize hnode : heap[n] = node at hx
      have hunfold : visitF (fuel + 1) n (chain, heap) =
          (if node.visited then (chain, heap)
           else
             (n :: (node.dependents.foldl (fun s d => visitF fuel d s)
                 (chain, heap.set n { node with visited := true })).1,
               (node.dependents.foldl (fun s d => visitF fuel d s)
                 (chain, heap.set n { node with visited := true })).2)) := by
        simp only [visitF, hx]
      by_cases hv : node.visited = true
      · rw [hunfold, if_pos hv]
        refine ⟨hsim, le_refl _, hinv, ⟨[], rfl⟩, ?_⟩
        show visitedF heap n = true
        unfold visitedF
        rw [heapGet_of_getElem? hx]
        exact hv
      · have hvf : node.visited = false := by simpa using hv
        rw [hunfold, if_neg hv]
        have hsim1 : HeapSim heap0 (heap.set n { node with visited := true }) :=
          HeapFrame_toSim (HeapFrame_set_visited hx) hsim
        have hcnt1 := unvisited_set hx hvf
        have hvisheap : visitedF heap n = false := by
          unfold visitedF
          rw [heapGet_of_getElem? hx]
          exact hvf
        have hnc : n ∉ chain := by
          intro hc
          rw [(hinv.1 n).mpr (Or.inl hc)] at hvisheap
          cases hvisheap
        have hnA : n ∉ A := by
          intro hc
          rw [(hinv.1 n).mpr (Or.inr hc)] at hvisheap
          cases hvisheap
        have hvis1 : ∀ x, visitedF (heap.set n { node with visited := true }) x = true ↔
            (x ∈ chain ∨ x ∈ n :: A) := by
          intro x
          rw [visitedF_set hx x]
          by_cases hc : x = n
          · subst hc
            simp
          · rw [if_neg hc]
            rw [hinv.1 x]
            constructor
            · rintro (h1 | h1)
              · exact Or.inl h1
              · exact Or.inr (List.mem_cons_of_mem _ h1)
            · rintro (h1 | h1)
              · exact Or.inl h1
              · rcases List.mem_cons.mp h1 with h2 | h2
                · exact absurd h2 hc
                · exact Or.inr h2
        have hinv1 : VisitInv heap0 (heap.set n { node with visited := true }) chain (n :: A) := by
          refine ⟨hvis1, hinv.2.1, ?_⟩
          intro x hxm
          rcases List.mem_cons.mp hxm with h1 | h1
          · rw [h1]
            exact hnc
          · exact hinv.2.2 x h1
        have hds : node.dependents = depntsAt heap0 n := by
          have h1 : depntsAt heap n = node.dependents := by
            unfold depntsAt
            rw [heapGet_of_getElem? hx]
          rw [← h1, hsim.2.2 n]
        have hdsbound : ∀ d ∈ node.dependents, d < heap0.length := by
          rw [hds]
          exact hwfn n
        have hdsanc : ∀ d ∈ node.dependents, ∀ x ∈ n :: A,
            Relation.ReflTransGen (dRel heap0) x d := by
          intro d hd x hxm
          have hstep : dRel heap0 n d := by
            unfold dRel
            rw [← hds]
            exact hd
          rcases List.mem_cons.mp hxm with h1 | h1
          · rw [h1]
            exact Relation.ReflTransGen.single hstep
          · exact (hanc x h1).tail hstep
        have hfold : ∀ (ds : List Nat), (∀ d ∈ ds, d < heap0.length) →
            (∀ d ∈ ds, ∀ x ∈ n :: A, Relation.ReflTransGen (dRel heap0) x d) →
            ∀ (c2 : List Nat) (h2 : List DepNode), HeapSim heap0 h2 →
              unvisitedCount h2 < fuel →
              VisitInv heap0 h2 c2 (n :: A) →
              HeapSim heap0 ((ds.foldl (fun s d => visitF fuel d s) (c2, h2))).2 ∧
              unvisitedCount ((ds.foldl (fun s d => visitF fuel d s) (c2, h2))).2 ≤
                unvisitedCount h2 ∧
              VisitInv heap0 ((ds.foldl (fun s d => visitF fuel d s) (c2, h2))).2
                ((ds.foldl (fun s d => visitF fuel d s) (c2, h2))).1 (n :: A) ∧
              (∃ Δ, ((ds.foldl (fun s d => visitF fuel d s) (c2, h2))).1 = Δ ++ c2) ∧
              (∀ d ∈ ds, visitedF ((ds.foldl (fun s d => visitF fuel d s) (c2, h2))).2 d
                = true) := by
          intro ds
          induction ds with
          | nil =>
              intro _ _ c2 h2 hs2 hf2 hi2
              exact ⟨hs2, le_refl _, hi2, ⟨[], rfl⟩, fun d hd => absurd hd (List.not_mem_nil d)⟩
          | cons d ds ihd =>
              intro hbd hanc2 c2 h2 hs2 hf2 hi2
              rw [List.foldl_cons]
              obtain ⟨sA, cA, iA, ⟨Δ1, hΔ1⟩, vA⟩ :=
                ih d c2 h2 (n :: A) hs2 hf2 (hbd d (List.mem_cons_self _ _)) hi2
                  (fun x hxm => hanc2 d (List.mem_cons_self _ _) x hxm)
              have heta : visitF fuel d (c2, h2) =
                  ((visitF fuel d (c2, h2)).1, (visitF fuel d (c2, h2)).2) := rfl
              rw [heta]
              obtain ⟨sB, cB, iB, ⟨Δ2, hΔ2⟩, vB⟩ :=
                ihd (fun x hxm => hbd x (List.mem_cons_of_mem _ hxm))
                  (fun x hxm => hanc2 x (List.mem_cons_of_mem _ hxm))
                  (visitF fuel d (c2, h2)).1 (visitF fuel d (c2, h2)).2 sA
                  (lt_of_le_of_lt cA hf2) iA
              refine ⟨sB, le_trans cB cA, iB, ⟨Δ2 ++ Δ1, ?_⟩, ?_⟩
              · rw [hΔ2, hΔ1, List.append_assoc]
              · intro e hem
                rcases List.mem_cons.mp hem with h1 | h1
                · subst h1
                  have hmem : e ∈ (visitF fuel e (c2, h2)).1 ∨ e ∈ n :: A :=
                    (iA.1 e).mp vA
                  apply (iB.1 e).mpr
                  rcases hmem with h2m | h2m
                  · left
                    rw [hΔ2]
                    exact List.mem_append_right _ h2m
                  · exact Or.inr h2m
                · exact vB e h1
        have hfuel1 : unvisitedCount (heap.set n { node with visited := true }) < fuel := by
          omega
        obtain ⟨hsF, hcF, hiF, ⟨Δ, hΔ⟩, hvF⟩ :=
          hfold node.dependents hdsbound hdsanc chain
            (heap.set n { node with visited := true }) hsim1 hfuel1 hinv1
        have hdepsub : ∀ d ∈ node.dependents,
            d ∈ (node.dependents.foldl (fun s d => visitF fuel d s)
              (chain, heap.set n { node with visited := true })).1 := by
          intro d hd
          rcases (hiF.1 d).mp (hvF d hd) with h1 | h1
          · exact h1
          · exfalso
            rcases List.mem_cons.mp h1 with h2 | h2
            · subst h2
              apply hacy d
              apply Relation.TransGen.single
              show d ∈ depsAt heap0 d
              apply (hsym d d).mpr
              rw [← hds]
              exact hd
            · apply hacy d
              have hdn : depRel heap0 d n := by
                show n ∈ depsAt heap0 d
                apply (hsym d n).mpr
                rw [← hds]
                exact hd
              exact Relation.TransGen.head' hdn (rtg_dRel_flip hsym (hanc d h2))
        show HeapSim heap0 (node.dependents.foldl (fun s d => visitF fuel d s)
            (chain, heap.set n { node with visited := true })).2 ∧
          unvisitedCount (node.dependents.foldl (fun s d => visitF fuel d s)
            (chain, heap.set n { node with visited := true })).2 ≤ unvisitedCount heap ∧
          VisitInv heap0 (node.dependents.foldl (fun s d => visitF fuel d s)
              (chain, heap.set n { node with visited := true })).2
            (n :: (node.dependents.foldl (fun s d => visitF fuel d s)
              (chain, heap.set n { node with visited := true })).1) A ∧
          (∃ Δ2, n :: (node.dependents.foldl (fun s d => visitF fuel d s)
            (chain, heap.set n { node with visited := true })).1 = Δ2 ++ chain) ∧
          visitedF (node.dependents.foldl (fun s d => visitF fuel d s)
            (chain, heap.set n { node with visited := true })).2 n = true
        constructor
        · exact hsF
        constructor
        · omega
        constructor
        · constructor
          · intro x
            rw [hiF.1 x]
            constructor
            · rintro (h1 | h1)
              · exact Or.inl (List.mem_cons_of_mem _ h1)
              · rcases List.mem_cons.mp h1 with h2 | h2
                · exact Or.inl (h2 ▸ List.mem_cons_self _ _)
                · exact Or.inr h2
            · rintro (h1 | h1)
              · rcases List.mem_cons.mp h1 with h2 | h2
                · exact Or.inr (h2 ▸ List.mem_cons_self _ _)
                · exact Or.inl h2
              · exact Or.inr (List.mem_cons_of_mem _ h1)
          constructor
          · constructor
            · rw [List.nodup_cons]
              exact ⟨hiF.2.2 n (List.mem_cons_self _ _), hiF.2.1.1⟩
            · intro l1 c l2 heq d hdm
              cases l1 with
              | nil =>
                  rw [List.nil_append] at heq
                  have hc : n = c := (List.cons.injEq _ _ _ _ ▸ heq).1
                  have hl2 : (node.dependents.foldl (fun s d => visitF fuel d s)
                      (chain, heap.set n { node with visited := true })).1 = l2 :=
                    (List.cons.injEq _ _ _ _ ▸ heq).2
                  rw [← hl2]
                  apply hdepsub
                  rw [hds, hc]
                  exact hdm
              | cons a l1 =>
                  rw [List.cons_append] at heq
                  have hrest : (node.dependents.foldl (fun s d => visitF fuel d s)
                      (chain, heap.set n { node with visited := true })).1 =
                      l1 ++ c :: l2 := (List.cons.injEq _ _ _ _ ▸ heq).2
                  exact hiF.2.1.2 l1 c l2 hrest d hdm
          · intro x hxm
            have hx1 : x ∉ (node.dependents.foldl (fun s d => visitF fuel d s)
                (chain, heap.set n { node with visited := true })).1 :=
              hiF.2.2 x (List.mem_cons_of_mem _ hxm)
            intro hc
            rcases List.mem_cons.mp hc with h2 | h2
            · rw [h2] at hxm
              exact hnA hxm
            · exact hx1 h2
        constructor
        · exact ⟨n :: Δ, by rw [List.cons_append, hΔ]⟩
        · show visitedF (node.dependents.foldl (fun s d => visitF fuel d s)
              (chain, heap.set n { node with visited := true })).2 n = true
          exact (hiF.1 n).mpr (Or.inr (List.mem_cons_self _ _))

theorem unvisited_le (heap : List DepNode) : unvisitedCount heap ≤ heap.length := by
  unfold unvisitedCount
  exact le_trans (List.length_filter_le _ _) (by simp)

theorem chain_fold {heap0 : List DepNode}
    (hwfn : ∀ i, ∀ d ∈ depntsAt heap0 i, d < heap0.length)
    (hsym : EdgeSymm heap0)
    (hacy : ∀ x, ¬ Relation.TransGen (depRel heap0) x x) :
    ∀ (ls : List Nat), (∀ l ∈ ls, l < heap0.length) →
      ∀ (chain : List Nat) (heap : List DepNode),
        HeapSim heap0 heap → VisitInv heap0 heap chain [] →
        HeapSim heap0 ((ls.foldl (fun s l => visitF (heap0.length + 1) l s) (chain, heap))).2 ∧
        VisitInv heap0 ((ls.foldl (fun s l => visitF (heap0.length + 1) l s) (chain, heap))).2
          ((ls.foldl (fun s l => visitF (heap0.length + 1) l s) (chain, heap))).1 [] ∧
        (∃ Δ, ((ls.foldl (fun s l => visitF (heap0.length + 1) l s) (chain, heap))).1 =
          Δ ++ chain) ∧
        (∀ l ∈ ls, visitedF ((ls.foldl (fun s l => visitF (heap0.length + 1) l s)
          (chain, heap))).2 l = true) := by
  intro ls
  induction ls with
  | nil =>
      intro _ chain heap hs hi
      exact ⟨hs, hi, ⟨[], rfl⟩, fun l hl => absurd hl (List.not_mem_nil l)⟩
  | cons l ls ihd =>
      intro hbd chain heap hs hi
      rw [List.foldl_cons]
      have hfuel : unvisitedCount heap < heap0.length + 1 := by
        have h1 := unvisited_le heap
        have h2 := hs.1
        omega
      obtain ⟨sA, cA, iA, ⟨Δ1, hΔ1⟩, vA⟩ :=
        visit_main hwfn hsym hacy (heap0.length + 1) l chain heap [] hs hfuel
          (hbd l (List.mem_cons_self _ _)) hi (fun x hxm => absurd hxm (List.not_mem_nil x))
      have heta : visitF (heap0.length + 1) l (chain, heap) =
          ((visitF (heap0.length + 1) l (chain, heap)).1,
           (visitF (heap0.length + 1) l (chain, heap)).2) := rfl
      rw [heta]
      obtain ⟨sB, iB, ⟨Δ2, hΔ2⟩, vB⟩ :=
        ihd (fun x hxm => hbd x (List.mem_cons_of_mem _ hxm))
          (visitF (heap0.length + 1) l (chain, heap)).1
          (visitF (heap0.length + 1) l (chain, heap)).2 sA iA
      refine ⟨sB, iB, ⟨Δ2 ++ Δ1, by rw [hΔ2, hΔ1, List.append_assoc]⟩, ?_⟩
      intro e hem
      rcases List.mem_cons.mp hem with h1 | h1
      · subst h1
        have hmem : e ∈ (visitF (heap0.length + 1) e (chain, heap)).1 ∨ e ∈ ([] : List Nat) :=
          (iA.1 e).mp vA
        apply (iB.1 e).mpr
        rcases hmem with h2m | h2m
        · left
          rw [hΔ2]
          exact List.mem_append_right _ h2m
        · cases h2m
      · exact vB e h1

theorem chain_final {g : DepGraph}
    (hwfn : ∀ i, ∀ d ∈ depntsAt g.heap i, d < g.heap.length)
    (hsym : EdgeSymm g.heap)
    (hacy : ∀ x, ¬ Relation.TransGen (depRel g.heap) x x)
    (hvis : ∀ i, (heapGet g.heap i).visited = false)
    (hlb : ∀ l ∈ g.leaves, l < g.heap.length) :
    VisitInv g.heap (evaluate_chain g).2.heap (evaluate_chain g).1 [] ∧
    ∀ l ∈ g.leaves, visitedF (evaluate_chain g).2.heap l = true := by
  have hinit : VisitInv g.heap g.heap [] [] := by
    refine ⟨?_, ⟨List.nodup_nil, ?_⟩, ?_⟩
    · intro x
      constructor
      · intro h
        unfold visitedF at h
        rw [hvis x] at h
        cases h
      · rintro (h | h) <;> cases h
    · intro l1 c l2 heq
      exfalso
      cases l1 with
      | nil => cases heq
      | cons a l1 => cases heq
    · intro x hxm
      cases hxm
  obtain ⟨hsF, hiF, _, hvF⟩ :=
    chain_fold hwfn hsym hacy g.leaves hlb [] g.heap (HeapSim_refl g.heap) hinit
  exact ⟨hiF, hvF⟩

theorem chain_closed {heap0 : List DepNode} {chain : List Nat}
    (ht : TopoOK heap0 chain) {c : Nat} (hc : c ∈ chain) :
    ∀ d ∈ depntsAt heap0 c, d ∈ chain := by
  obtain ⟨l1, l2, heq⟩ := List.append_of_mem hc
  intro d hd
  have h2 := ht.2 l1 c l2 heq d hd
  rw [heq]
  exact List.mem_append_right _ (List.mem_cons_of_mem _ h2)

theorem chain_reach_closed {heap0 : List DepNode} {chain : List Nat}
    (ht : TopoOK heap0 chain) {m b : Nat} (hm : m ∈ chain)
    (hr : Relation.ReflTransGen (dRel heap0) m b) : b ∈ chain := by
  induction hr with
  | refl => exact hm
  | tail hab hbc ih => exact chain_closed ht ih _ hbc

theorem rtg_depRel_flip {heap0 : List DepNode} (hsym : EdgeSymm heap0) {x y : Nat}
    (h : Relation.ReflTransGen (depRel heap0) x y) :
    Relation.ReflTransGen (dRel heap0) y x := by
  induction h with
  | refl => exact Relation.ReflTransGen.refl
  | tail hab hbc ih =>
      rename_i b c
      exact Relation.ReflTransGen.head ((hsym b c).mp hbc) ih

theorem exists_leafward {heap0 : List DepNode}
    (hwfd : ∀ i, ∀ d ∈ depsAt heap0 i, d < heap0.length)
    (hacy : ∀ x, ¬ Relation.TransGen (depRel heap0) x x)
    {b : Nat} (hb : b < heap0.length) :
    ∃ m, Relation.ReflTransGen (depRel heap0) b m ∧ depsAt heap0 m = [] := by
  by_contra hcon
  push_neg at hcon
  let f : Nat → Nat := fun k =>
    Nat.rec (motive := fun _ => Nat) b (fun _ prev => (depsAt heap0 prev).headD 0) k
  have hfs : ∀ k, f (k + 1) = (depsAt heap0 (f k)).headD 0 := fun k => rfl
  have hmem : ∀ x, Relation.ReflTransGen (depRel heap0) b x →
      (depsAt heap0 x).headD 0 ∈ depsAt heap0 x := by
    intro x hx
    cases hd : depsAt heap0 x with
    | nil => exact absurd hd (hcon x hx)
    | cons a tl =>
        simp
  have hjoint : ∀ k, Relation.ReflTransGen (depRel heap0) b (f k) ∧
      depRel heap0 (f k) (f (k + 1)) := by
    intro k
    induction k with
    | zero =>
        refine ⟨Relation.ReflTransGen.refl, ?_⟩
        exact hmem (f 0) Relation.ReflTransGen.refl
    | succ k ihk =>
        have hr : Relation.ReflTransGen (depRel heap0) b (f (k + 1)) :=
          ihk.1.tail ihk.2
        refine ⟨hr, ?_⟩
        exact hmem (f (k + 1)) hr
  have hlt : ∀ k, f k < heap0.length := by
    intro k
    cases k with
    | zero => exact hb
    | succ k => exact hwfd (f k) (f (k + 1)) (hjoint k).2
  have hmono : ∀ i j, i < j → Relation.TransGen (depRel heap0) (f i) (f j) := by
    intro i j hij
    induction j with
    | zero => omega
    | succ j ihj =>
        rcases Nat.lt_or_ge i j with h1 | h1
        · exact (ihj h1).tail (hjoint j).2
        · have h2 : i = j := by omega
          subst h2
          exact Relation.TransGen.single (hjoint i).2
  have hmaps : ∀ k ∈ Finset.range (heap0.length + 1), f k ∈ Finset.range heap0.length :=
    fun k _ => Finset.mem_range.mpr (hlt k)
  obtain ⟨i, hi, j, hj, hne, heq⟩ :=
    Finset.exists_ne_map_eq_of_card_lt_of_maps_to (by simp) hmaps
  rcases Nat.lt_or_ge i j with h1 | h1
  · have h2 := hmono i j h1
    rw [← heq] at h2
    exact hacy (f i) h2
  · have h3 : j < i := by omega
    have h2 := hmono j i h3
    rw [heq] at h2
    exact hacy (f j) h2

theorem rtg_dep_reg {g : DepGraph} (hreg : ∀ i, ∀ d ∈ depsAt g.heap i, d ∈ g.all_nodes)
    {b m : Nat} (h : Relation.ReflTransGen (depRel g.heap) b m) (hb : b ∈ g.all_nodes) :
    m ∈ g.all_nodes := by
  induction h with
  | refl => exact hb
  | tail hab hbc ih =>
      rename_i x y
      exact hreg x y hbc

theorem indexOf_append_not_mem {c : Nat} {l1 l2 : List Nat} (h : c ∉ l1) :
    (l1 ++ l2).indexOf c = l1.length + l2.indexOf c := by
  induction l1 with
  | nil => simp
  | cons a l1 ih =>
      rw [List.cons_append, List.indexOf_cons]
      have ha : (a == c) = false := by
        have hne : a ≠ c := by
          intro hc
          exact h (hc ▸ List.mem_cons_self a l1)
        simpa using hne
      rw [ha]
      show (l1 ++ l2).indexOf c + 1 = (a :: l1).length + l2.indexOf c
      rw [ih (fun hm => h (List.mem_cons_of_mem _ hm)), List.length_cons]
      omega

theorem indexOf_split_lt {l1 l2 : List Nat} {b a : Nat}
    (hnd : (l1 ++ b :: l2).Nodup) (ha : a ∈ l2) :
    (l1 ++ b :: l2).indexOf b < (l1 ++ b :: l2).indexOf a := by
  rw [List.nodup_append] at hnd
  have hb1 : b ∉ l1 := fun hm => hnd.2.2 hm (List.mem_cons_self _ _)
  have ha1 : a ∉ l1 := fun hm => hnd.2.2 hm (List.mem_cons_of_mem _ ha)
  have hab : b ≠ a := by
    intro hc
    have := (List.nodup_cons.mp hnd.2.1).1
    rw [hc] at this
    exact this ha
  rw [indexOf_append_not_mem hb1, indexOf_append_not_mem ha1,
    List.indexOf_cons, List.indexOf_cons]
  have h1 : (b == b) = true := by simp
  have h2 : (b == a) = false := by simpa using hab
  rw [h1, h2]
  show l1.length + 0 < l1.length + (l2.indexOf a + 1)
  omega

/-- Claim C1: for every graph produced by `DepGraph.build` whose dependency
relation is acyclic and for every edge where node `a` depends on node `b`,
`b`'s position in the chain returned by `evaluate_chain` is strictly
earlier than `a`'s position. -/
theorem C1_chain_is_topological (inputs sources : List String) (fs : FileSystem)
    (g : DepGraph) (a b : Nat)
    (hb : build inputs sources fs = .ok g)
    (hacy : Acyclic g)
    (hedge : dependsOn g a b) :
    (evaluate_chain g).1.indexOf b < (evaluate_chain g).1.indexOf a := by
  obtain ⟨hbound, hdeps, hdepnts, hsym, hreg, hvis, hleaves, _, _⟩ := build_ok_inv hb
  have hacy2 : ∀ x, ¬ Relation.TransGen (depRel g.heap) x x := hacy
  have hlb : ∀ l ∈ g.leaves, l < g.heap.length := by
    intro l hl
    rw [hleaves] at hl
    exact hbound l (List.mem_filter.mp hl).1
  obtain ⟨hiF, hvF⟩ := chain_final hdepnts hsym hacy2 hvis hlb
  have hblt : b < g.heap.length := hdeps a b hedge
  have hbreg : b ∈ g.all_nodes := hreg a b hedge
  obtain ⟨m, hm_r, hm_deps⟩ := exists_leafward hdeps hacy2 hblt
  have hmreg : m ∈ g.all_nodes := rtg_dep_reg hreg hm_r hbreg
  have hmleaf : m ∈ g.leaves := by
    rw [hleaves]
    apply List.mem_filter.mpr
    refine ⟨hmreg, ?_⟩
    show (heapGet g.heap m).dependencies.isEmpty = true
    rw [show (heapGet g.heap m).dependencies = [] from hm_deps]
    rfl
  have hmchain : m ∈ (evaluate_chain g).1 := by
    rcases (hiF.1 m).mp (hvF m hmleaf) with h1 | h1
    · exact h1
    · cases h1
  have hbchain : b ∈ (evaluate_chain g).1 :=
    chain_reach_closed hiF.2.1 hmchain (rtg_depRel_flip hsym hm_r)
  have hadep : a ∈ depntsAt g.heap b := (hsym a b).mp hedge
  obtain ⟨l1, l2, heq⟩ := List.append_of_mem hbchain
  have hal2 : a ∈ l2 := hiF.2.1.2 l1 b l2 heq a hadep
  rw [heq]
  exact indexOf_split_lt (heq ▸ hiF.2.1.1) hal2

/-- Witness for C1 at the concrete two-module build: module `a.b.Bar`
(node 2) precedes its dependent `a.b.Foo` (node 1) in the chain. -/
theorem C1_chain_is_topological_witness :
    (evaluate_chain gTwoMods).1.indexOf 2 < (evaluate_chain gTwoMods).1.indexOf 1 := by
  have hchar : ∀ x y, dependsOn gTwoMods x y → x = 1 ∧ y = 2 := by
    intro x y h
    match x with
    | 0 => cases (show y ∈ ([] : List Nat) from h)
    | 1 =>
        have h2 : y ∈ ([2] : List Nat) := h
        exact ⟨rfl, List.mem_singleton.mp h2⟩
    | 2 => cases (show y ∈ ([] : List Nat) from h)
    | n + 3 =>
        have hlen : gTwoMods.heap.length ≤ n + 3 := by
          rw [show gTwoMods.heap.length = 3 from rfl]
          omega
        have h2 : y ∈ (heapGet gTwoMods.heap (n + 3)).dependencies := h
        rw [heapGet_out _ _ hlen] at h2
        cases (show y ∈ ([] : List Nat) from h2)
  have hacy : Acyclic gTwoMods := by
    intro n htg
    have hchar2 : ∀ x y, Relation.TransGen (dependsOn gTwoMods) x y → x = 1 ∧ y = 2 := by
      intro x y h
      induction h with
      | single h1 => exact hchar _ _ h1
      | tail h1 h2 ih =>
          have h3 := hchar _ _ h2
          have h4 := ih
          rw [h4.2] at h3
          cases h3.1
    have := hchar2 n n htg
    rw [this.2] at this
    cases this.1
  exact C1_chain_is_topological ["foo.js"] ["Bar.js"] fsTwoMods gTwoMods 1 2 rfl hacy
    (show (2 : Nat) ∈ (heapGet gTwoMods.heap 1).dependencies from by decide)
